import Mathlib

/-!
Shallow embedding of the podible audiobook server (TypeScript) in Lean 4,
with theorems checking the natural-language specification against the code.

Conventions of the embedding:
* JS numbers that hold byte offsets, sizes and timestamps are modelled as `Int`
  (they are integral in every reachable state of the program).
* `Uint8Array` values are modelled as `List Nat` (each element a byte value).
* Fallible filesystem reads are modelled by a function `Fs : String → Option (List Nat)`
  giving the current contents of each path.
* JS string truthiness (empty string is falsy) is modelled explicitly at each
  use site, mirroring the source.
-/

namespace Podible

/-! ## Small utilities: decimal digits, UTF-8, slices -/

def isDigitCh (c : Char) : Bool := '0' ≤ c && c ≤ '9'

def digitsToNat (cs : List Char) : Nat :=
  cs.foldl (fun acc c => acc * 10 + (c.toNat - '0'.toNat)) 0

def digitCh (n : Nat) : Char := Char.ofNat ('0'.toNat + n)

/-- Decimal rendering worker; the fuel argument keeps the recursion structural
(any fuel above the number itself is enough). -/
def natDigitsGo (fuel : Nat) (n : Nat) : List Char :=
  match fuel with
  | 0 => []
  | fuel + 1 => if n < 10 then [digitCh n] else natDigitsGo fuel (n / 10) ++ [digitCh (n % 10)]

/-- Decimal rendering of a natural number, most significant digit first. -/
def natDigits (n : Nat) : List Char := natDigitsGo (n + 1) n

def natStr (n : Nat) : String := String.mk (natDigits n)

/-- UTF-8 encoding of a single scalar value, as produced by `TextEncoder`. -/
def utf8Ch (c : Char) : List Nat :=
  let v := c.toNat
  if v < 0x80 then [v]
  else if v < 0x800 then [0xC0 ||| (v >>> 6), 0x80 ||| (v &&& 0x3F)]
  else if v < 0x10000 then
    [0xE0 ||| (v >>> 12), 0x80 ||| ((v >>> 6) &&& 0x3F), 0x80 ||| (v &&& 0x3F)]
  else
    [0xF0 ||| (v >>> 18), 0x80 ||| ((v >>> 12) &&& 0x3F),
     0x80 ||| ((v >>> 6) &&& 0x3F), 0x80 ||| (v &&& 0x3F)]

/-- Model of `TextEncoder.encode`. -/
def utf8 (s : String) : List Nat := s.data.flatMap utf8Ch

/-- Inclusive slice `l[a..b]` over `Nat` indices (clamped at the end of `l`). -/
def sliceIncl (l : List Nat) (a b : Nat) : List Nat :=
  (l.drop a).take (b - a + 1)

/-- Index normalization of `Uint8Array.prototype.slice` / `Blob.slice`. -/
def jsIdx (len : Nat) (k : Int) : Nat :=
  if k < 0 then ((len : Int) + k).toNat else min k.toNat len

/-- Model of `u8.slice(s, e)` (JS half-open slice with relative indices). -/
def jsSliceU8 (l : List Nat) (s e : Int) : List Nat :=
  (l.drop (jsIdx l.length s)).take (jsIdx l.length e - jsIdx l.length s)

/-! ## Range parsing (src/streaming/range.ts, parseRange) -/

structure ByteRange where
  start : Int
  stop : Int
deriving DecidableEq, Repr

/-- Strip an expected literal from the head of a character list. -/
def eatLit : List Char → List Char → Option (List Char)
  | [], cs => some cs
  | _ :: _, [] => none
  | p :: ps, c :: cs => if c = p then eatLit ps cs else none

/-- Split at the first occurrence of the dash character. -/
def splitDash : List Char → Option (List Char × List Char)
  | [] => none
  | c :: cs =>
    if c = '-' then some ([], cs)
    else match splitDash cs with
      | some (l, r) => some (c :: l, r)
      | none => none

/-- Capture groups of the regex `^bytes=(\d*)-(\d*)$` applied to `cs`:
the two (possibly empty) digit groups, or `none` if the regex does not match. -/
def rangeGroups (cs : List Char) : Option (List Char × List Char) :=
  match eatLit "bytes=".data cs with
  | none => none
  | some rest =>
    match splitDash rest with
    | none => none
    | some (g1, g2) =>
      if g1.all isDigitCh && g2.all isDigitCh then some (g1, g2) else none

/-- Model of `parseRange(rangeHeader, size)`.  The header is `none` for a
missing header; JS string truthiness makes the empty string behave the same. -/
def parseRange (rangeHeader : Option String) (size : Int) : Option ByteRange :=
  match rangeHeader with
  | none => none
  | some h =>
    if h.data = [] then none
    else
      match rangeGroups h.data with
      | none => none
      | some (g1, g2) =>
        let start0 : Int := if g1 ≠ [] then (digitsToNat g1 : Int) else 0
        let end0 : Int := if g2 ≠ [] then (digitsToNat g2 : Int) else size - 1
        let start1 : Int := if g1 = [] ∧ g2 ≠ [] then size - end0 else start0
        let end1 : Int := if g1 = [] ∧ g2 ≠ [] then size - 1 else end0
        if start1 < 0 ∨ end1 < start1 ∨ start1 ≥ size then none
        else some ⟨start1, min end1 (size - 1)⟩

/-- Concrete range header string `bytes=A-B`. -/
def mkRangeHeader (a b : Nat) : String :=
  String.mk ("bytes=".data ++ natDigits a ++ '-' :: natDigits b)

/-- Concrete open-ended range header string `bytes=A-`. -/
def mkOpenHeader (a : Nat) : String :=
  String.mk ("bytes=".data ++ natDigits a ++ ['-'])

/-- Concrete suffix range header string `bytes=-N`. -/
def mkSuffixHeader (n : Nat) : String :=
  String.mk ("bytes=".data ++ '-' :: natDigits n)

/-! ## Data model (src/types.ts) -/

inductive BookKind
  | single
  | multi
deriving DecidableEq, Repr

structure AudioSegment where
  path : String
  name : String
  size : Int
  start : Int
  /-- Byte offset `end` of the segment (a reserved word in Lean). -/
  stop : Int
  durationMs : Int
  title : Option String := none
deriving DecidableEq, Repr

structure ChapterTiming where
  id : String
  title : String
  startMs : Int
  endMs : Int
deriving DecidableEq, Repr

structure Book where
  id : String
  title : String
  author : String
  kind : BookKind
  mime : String
  totalSize : Int
  primaryFile : Option String := none
  files : Option (List AudioSegment) := none
  coverPath : Option String := none
  epubPath : Option String := none
  durationSeconds : Option Int := none
  publishedAt : Option Int := none
  addedAt : Option Int := none
  description : Option String := none
  descriptionHtml : Option String := none
  language : Option String := none
  isbn : Option String := none
  identifiers : List (String × String) := []
  chapters : Option (List ChapterTiming) := none
deriving DecidableEq, Repr

/-- Model of the filesystem: contents of each path, or `none` if absent. -/
def Fs : Type := String → Option (List Nat)

/-! ## Path helpers (node:path basename / extname, on plain file names) -/

/-- Portion of a path after the last slash. -/
def baseNamePart (p : String) : List Char :=
  p.data.foldl (fun acc c => if c = '/' then [] else acc ++ [c]) []

/-- Model of `path.extname`. -/
def extname (p : String) : String :=
  let b := baseNamePart p
  match b.reverse.findIdx? (· = '.') with
  | none => ""
  | some k =>
    let i := b.length - 1 - k
    if i = 0 then "" else String.mk (b.drop i)

/-- Model of `path.basename(p, suffix)`. -/
def basenameSuffix (p : String) (suffix : String) : String :=
  let b := baseNamePart p
  if suffix.data ≠ b ∧ suffix.data.isSuffixOf b then
    String.mk (b.take (b.length - suffix.data.length))
  else String.mk b

/-! ## Chapter timings (src/library/chapters.ts) -/

/-- JS `a || b` on an optional string (empty string is falsy). -/
def jsOrStr (a : Option String) (b : String) : String :=
  match a with
  | some s => if s = "" then b else s
  | none => b

/-- Chapter title fallback chain of `buildChapterTimings`:
`segment.title || basename(name, extname(name)) || "Part {i+1}"`. -/
def chapterTitle (seg : AudioSegment) (index : Nat) : String :=
  let base := basenameSuffix seg.name (extname seg.name)
  jsOrStr seg.title (if base = "" then "Part " ++ natStr (index + 1) else base)

def timingsGo : List AudioSegment → Int → Nat → List ChapterTiming
  | [], _, _ => []
  | seg :: rest, cursorMs, index =>
    { id := "ch" ++ natStr index
      title := chapterTitle seg index
      startMs := cursorMs
      endMs := cursorMs + seg.durationMs } :: timingsGo rest (cursorMs + seg.durationMs) (index + 1)

/-- Model of `buildChapterTimings`. -/
def buildChapterTimings (book : Book) : Option (List ChapterTiming) :=
  match book.kind with
  | .single =>
    match book.chapters with
    | some cs => if cs.length > 0 then some cs else none
    | none => none
  | .multi =>
    match book.files with
    | none => none
    | some files => some (timingsGo files 0 0)

/-! ## ID3 chapter-tag encoder (src/streaming/id3.ts) -/

structure CoverArt where
  mime : String
  data : List Nat
deriving DecidableEq, Repr

def concatBytes (chunks : List (List Nat)) : List Nat := chunks.flatten

def synchsafeSize (size : Nat) : List Nat :=
  [(size >>> 21) &&& 0x7f, (size >>> 14) &&& 0x7f, (size >>> 7) &&& 0x7f, size &&& 0x7f]

/-- Big-endian uint32; the JS `>>>` operator first coerces to uint32,
modelled by reducing mod 2^32. -/
def writeUint32BE (value : Int) : List Nat :=
  let v := (value % (2 ^ 32 : Nat)).toNat
  [(v >>> 24) &&& 0xff, (v >>> 16) &&& 0xff, (v >>> 8) &&& 0xff, v &&& 0xff]

def id3Frame (id : String) (payload : List Nat) : List Nat :=
  let idb := (utf8 id).take 4
  (idb ++ List.replicate (4 - idb.length) 0) ++ synchsafeSize payload.length ++ [0, 0] ++ payload

def textFrame (id : String) (text : String) : List Nat :=
  id3Frame id (0x03 :: utf8 text)

def apicFrame (cover : CoverArt) : List Nat :=
  id3Frame "APIC" (concatBytes [[0x03], utf8 cover.mime, [0x00], [0x03], [0x00], cover.data])

def chapFrame (chapterId : String) (title : String) (startMs endMs : Int) : List Nat :=
  id3Frame "CHAP" (concatBytes
    [utf8 chapterId, [0x00], writeUint32BE startMs, writeUint32BE endMs,
     writeUint32BE 0xffffffff, writeUint32BE 0xffffffff, textFrame "TIT2" title])

def ctocFrame (childIds : List String) : List Nat :=
  id3Frame "CTOC" (concatBytes
    [utf8 "toc", [0x00], [0x03], [childIds.length % 256],
     concatBytes (childIds.map (fun id => utf8 id ++ [0x00])),
     textFrame "TIT2" "Chapters"])

/-- Model of `buildId3ChaptersTag`. -/
def buildId3ChaptersTag (timings : List ChapterTiming) (cover : Option CoverArt := none) :
    List Nat :=
  if timings.length = 0 ∧ cover = none then []
  else
    let coverFrames := match cover with | some c => [apicFrame c] | none => []
    let chapterFrames :=
      if timings.length > 0 then
        ctocFrame (timings.map (·.id)) ::
          timings.map (fun chap => chapFrame chap.id chap.title chap.startMs chap.endMs)
      else []
    let framesBytes := concatBytes (coverFrames ++ chapterFrames)
    (utf8 "ID3" ++ [0x04, 0x00, 0x00] ++ synchsafeSize framesBytes.length) ++ framesBytes

/-- ASCII lowercasing as used on file extensions. -/
def lowerCh (c : Char) : Char :=
  if 'A' ≤ c ∧ c ≤ 'Z' then Char.ofNat (c.toNat + 32) else c

def lowerStr (s : String) : String := String.mk (s.data.map lowerCh)

def coverMimeFromPath (coverPath : String) : String :=
  if lowerStr (extname coverPath) = ".png" then "image/png" else "image/jpeg"

/-- Model of `estimateCoverFrameLength`; `statSync(path).size` is modelled by
the length of the file contents in the same filesystem snapshot. -/
def estimateCoverFrameLength (fs : Fs) (coverPath : Option String) : Int :=
  match coverPath with
  | none => 0
  | some p =>
    match fs p with
    | none => 0
    | some bytes =>
      if bytes.length = 0 then 0
      else
        let mimeLen := (utf8 (coverMimeFromPath p)).length
        let payloadLen : Int := 1 + mimeLen + 1 + 1 + 1 + bytes.length
        10 + payloadLen

/-- Model of `estimateId3TagLength`. -/
def estimateId3TagLength (fs : Fs) (book : Book) : Int :=
  match book.files with
  | none => 0
  | some files =>
    if book.kind ≠ .multi then 0
    else
      let dummyTimings : List ChapterTiming := files.enum.map fun p =>
        { id := "ch" ++ natStr p.1
          title := basenameSuffix p.2.name (extname p.2.name)
          startMs := 0
          endMs := 0 }
      let base := (buildId3ChaptersTag dummyTimings).length
      (base : Int) + estimateCoverFrameLength fs book.coverPath

/-! ## Virtual stream assembler (src/streaming/range.ts + handleStream) -/

/-- Model of `segmentsForRange` (map to relative sub-ranges, keep overlaps). -/
def segmentsForRange (files : List AudioSegment) (start stop : Int) : List AudioSegment :=
  files.filterMap fun file =>
    if file.stop < start ∨ file.start > stop then none
    else some { file with
      start := max start file.start - file.start
      stop := min stop file.stop - file.start }

/-- Bytes delivered by `createReadStream(path, \x7bstart, end\x7d)` (inclusive range,
clamped at end of file). -/
def readFileRange (fs : Fs) (path : String) (start stop : Int) : List Nat :=
  (((fs path).getD []).drop start.toNat).take (stop - start + 1).toNat

/-- Concatenated bytes emitted by `streamSegments`. -/
def streamSegments (fs : Fs) (segments : List AudioSegment) : List Nat :=
  (segments.map fun s => readFileRange fs s.path s.start s.stop).flatten

inductive ContentRange
  /-- Header `bytes start-stop/total`. -/
  | rng (start stop total : Int)
  /-- Header `bytes */total`. -/
  | unsat (total : Int)
deriving DecidableEq, Repr

structure StreamResponse where
  status : Nat
  contentLength : Option Int := none
  contentRange : Option ContentRange := none
  body : List Nat := []
deriving DecidableEq, Repr

/-- JS truthiness of the range header string. -/
def hdrTruthy : Option String → Bool
  | none => false
  | some s => s != ""

/-- Cover art loaded by `handleStream` from `book.coverPath`. -/
def coverArtOf (fs : Fs) (book : Book) : Option CoverArt :=
  match book.coverPath with
  | none => none
  | some cp =>
    match fs cp with
    | none => none
    | some bytes => if bytes.length > 0 then some ⟨coverMimeFromPath cp, bytes⟩ else none

/-- Single-container path of `handleStream`. -/
def handleStreamSingle (fs : Fs) (book : Book) (primaryFile : String)
    (rangeHeader : Option String) : StreamResponse :=
  let size := book.totalSize
  let fileBytes := (fs primaryFile).getD []
  match parseRange rangeHeader size with
  | none => { status := 200, contentLength := some size, body := fileBytes }
  | some range =>
    { status := 206
      contentLength := some (range.stop - range.start + 1)
      contentRange := some (.rng range.start range.stop size)
      body := jsSliceU8 fileBytes range.start (range.stop + 1) }

/-- Second half of the multi path of `handleStream`, after the range has been
resolved (the `range` binding of the source). -/
def multiRespond (fs : Fs) (book : Book) (rangeHeader : Option String)
    (tag : List Nat) (range : ByteRange) : StreamResponse :=
  let files := book.files.getD []
  let tagLength : Int := tag.length
  let audioSize := book.totalSize
  let totalSize := tagLength + audioSize
  if range.start ≥ totalSize then
    { status := 416, contentRange := some (.unsat totalSize)
      body := utf8 "Range Not Satisfiable" }
  else
    let tagStart := range.start
    let tagEnd := min range.stop (tagLength - 1)
    let includeTag := tagStart < tagLength
    let audioRangeStart := max range.start tagLength - tagLength
    let audioRangeEnd := range.stop - tagLength
    let includeAudio := range.stop ≥ tagLength
    let contentLength := some (range.stop - range.start + 1)
    let contentRange :=
      if hdrTruthy rangeHeader then some (ContentRange.rng range.start range.stop totalSize)
      else none
    let status := if hdrTruthy rangeHeader then 206 else 200
    if includeTag ∧ ¬ includeAudio then
      { status := status, contentLength := contentLength, contentRange := contentRange
        body := jsSliceU8 tag tagStart (tagEnd + 1) }
    else
      let audioSlices :=
        if includeAudio then segmentsForRange files audioRangeStart audioRangeEnd else []
      if includeAudio ∧ audioSlices.length = 0 then
        { status := 416, contentLength := contentLength
          contentRange := some (.unsat totalSize)
          body := utf8 "Range Not Satisfiable" }
      else
        let tagSlice := if includeTag then jsSliceU8 tag tagStart (tagEnd + 1) else []
        { status := status, contentLength := contentLength, contentRange := contentRange
          body := tagSlice ++ (if includeAudio then streamSegments fs audioSlices else []) }

/-- Multi-part path of `handleStream`. -/
def handleStreamMulti (fs : Fs) (book : Book) (rangeHeader : Option String) : StreamResponse :=
  match buildChapterTimings book with
  | none => { status := 404, body := utf8 "Not found" }
  | some timings =>
    let tag := buildId3ChaptersTag timings (coverArtOf fs book)
    let totalSize : Int := (tag.length : Int) + book.totalSize
    let range := (parseRange rangeHeader totalSize).getD ⟨0, totalSize - 1⟩
    multiRespond fs book rangeHeader tag range

/-- Model of `handleStream` (src/http handlers, multi + single paths), given the
book resolved from the id.  The response body is the full byte stream. -/
def handleStream (fs : Fs) (book : Book) (rangeHeader : Option String) : StreamResponse :=
  match book.kind, book.primaryFile with
  | .single, some primaryFile => handleStreamSingle fs book primaryFile rangeHeader
  | _, _ => handleStreamMulti fs book rangeHeader

/-- Concatenation of the contents of all part files. -/
def audioJoin (fs : Fs) (files : List AudioSegment) : List Nat :=
  (files.map fun f => (fs f.path).getD []).flatten

/-- Chapter tag of a multi book as `handleStream` builds it. -/
def tagOf (fs : Fs) (book : Book) : List Nat :=
  buildId3ChaptersTag (((buildChapterTimings book)).getD []) (coverArtOf fs book)

/-- Logical object served by the assembler: `tag ‖ audio` (tag empty for single). -/
def virtualObject (fs : Fs) (book : Book) : List Nat :=
  match book.kind, book.primaryFile with
  | .single, some p => (fs p).getD []
  | _, _ => tagOf fs book ++ audioJoin fs (book.files.getD [])

/-! ## Well-formedness of a book against the filesystem (the invariants of
spec §3, which the scanner establishes; see the claims about buildBook). -/

def segOkB (fs : Fs) : Int → List AudioSegment → Bool
  | _, [] => true
  | c, f :: rest =>
    match fs f.path with
    | none => false
    | some bytes =>
      f.start == c && f.size == (bytes.length : Int) && (0 : Int) < f.size &&
        f.stop == c + f.size - 1 && segOkB fs (c + f.size) rest

def sumSizes (files : List AudioSegment) : Int :=
  files.foldl (fun acc s => acc + s.size) 0

def wfBook (fs : Fs) (book : Book) : Bool :=
  match book.kind with
  | .single =>
    match book.primaryFile with
    | none => false
    | some p =>
      match fs p with
      | none => false
      | some bytes => book.totalSize == (bytes.length : Int)
  | .multi =>
    match book.files with
    | none => false
    | some files =>
      !files.isEmpty && segOkB fs 0 files && book.totalSize == sumSizes files

/-! ## Decimal digit lemmas -/

theorem digitCh_toNat {n : Nat} (h : n < 10) : (digitCh n).toNat = 48 + n := by
  interval_cases n <;> decide

theorem isDigitCh_digitCh {n : Nat} (h : n < 10) : isDigitCh (digitCh n) = true := by
  interval_cases n <;> decide

theorem digitsToNat_append (l : List Char) (c : Char) :
    digitsToNat (l ++ [c]) = digitsToNat l * 10 + (c.toNat - '0'.toNat) := by
  simp [digitsToNat, List.foldl_append]

theorem natDigitsGo_ne_nil {fuel n : Nat} (h : n < fuel) : natDigitsGo fuel n ≠ [] := by
  cases fuel with
  | zero => omega
  | succ fuel =>
    rw [natDigitsGo]
    split
    · simp
    · simp

theorem natDigits_ne_nil (n : Nat) : natDigits n ≠ [] :=
  natDigitsGo_ne_nil (by omega)

theorem natDigitsGo_all_digit :
    ∀ n fuel, n < fuel → ∀ c ∈ natDigitsGo fuel n, isDigitCh c = true := by
  intro n
  induction n using Nat.strong_induction_on with
  | _ n ih =>
    intro fuel hlt c hc
    cases fuel with
    | zero => omega
    | succ fuel =>
      rw [natDigitsGo] at hc
      split at hc
      · next h => simp at hc; subst hc; exact isDigitCh_digitCh h
      · next h =>
        simp only [List.mem_append, List.mem_singleton] at hc
        rcases hc with hc | hc
        · exact ih (n / 10) (Nat.div_lt_self (by omega) (by omega)) fuel (by omega) c hc
        · subst hc; exact isDigitCh_digitCh (Nat.mod_lt _ (by omega))

theorem natDigits_all_digit (n : Nat) : ∀ c ∈ natDigits n, isDigitCh c = true :=
  natDigitsGo_all_digit n (n + 1) (by omega)

theorem isDigitCh_ne_dash {c : Char} (h : isDigitCh c = true) : c ≠ '-' := by
  intro hc; subst hc; simp [isDigitCh] at h

theorem dash_not_mem_natDigits (n : Nat) : '-' ∉ natDigits n := by
  intro hmem
  exact isDigitCh_ne_dash (natDigits_all_digit n '-' hmem) rfl

theorem digitsToNat_natDigitsGo :
    ∀ n fuel, n < fuel → digitsToNat (natDigitsGo fuel n) = n := by
  intro n
  induction n using Nat.strong_induction_on with
  | _ n ih =>
    intro fuel hlt
    cases fuel with
    | zero => omega
    | succ fuel =>
      rw [natDigitsGo]
      split
      · next h =>
        have h0 : '0'.toNat = 48 := rfl
        simp [digitsToNat, digitCh_toNat h, h0]
      · next h =>
        have h0 : '0'.toNat = 48 := rfl
        rw [digitsToNat_append, ih (n / 10) (Nat.div_lt_self (by omega) (by omega)) fuel (by omega),
          digitCh_toNat (Nat.mod_lt _ (by omega))]
        omega

theorem digitsToNat_natDigits (n : Nat) : digitsToNat (natDigits n) = n :=
  digitsToNat_natDigitsGo n (n + 1) (by omega)

/-! ## Lemmas about the regex model -/

theorem eatLit_self_append (ps rest : List Char) : eatLit ps (ps ++ rest) = some rest := by
  induction ps with
  | nil => rfl
  | cons p ps ih => simp [eatLit, ih]

theorem eatLit_some {ps cs rest : List Char} (h : eatLit ps cs = some rest) :
    cs = ps ++ rest := by
  induction ps generalizing cs with
  | nil => simp [eatLit] at h; simp [h]
  | cons p ps ih =>
    cases cs with
    | nil => simp [eatLit] at h
    | cons c cs =>
      simp only [eatLit] at h
      split at h
      · next hc => subst hc; simp [ih h]
      · exact absurd h (by simp)

theorem splitDash_of_no_dash (l r : List Char) (hl : '-' ∉ l) :
    splitDash (l ++ '-' :: r) = some (l, r) := by
  induction l with
  | nil => simp [splitDash]
  | cons c cs ih =>
    have hc : c ≠ '-' := by intro h; exact hl (by simp [h])
    have hcs : '-' ∉ cs := by intro h; exact hl (by simp [h])
    simp [splitDash, hc, ih hcs]

theorem splitDash_some {cs l r : List Char} (h : splitDash cs = some (l, r)) :
    cs = l ++ '-' :: r ∧ '-' ∉ l := by
  induction cs generalizing l r with
  | nil => simp [splitDash] at h
  | cons c cs ih =>
    simp only [splitDash] at h
    split at h
    · next hc =>
      subst hc
      simp at h
      obtain ⟨hl, hr⟩ := h
      subst hl; subst hr; simp
    · next hc =>
      cases hsp : splitDash cs with
      | none => rw [hsp] at h; exact absurd h (by simp)
      | some pr =>
        obtain ⟨l', r'⟩ := pr
        rw [hsp] at h
        simp at h
        obtain ⟨hl, hr⟩ := h
        obtain ⟨hcs, hnd⟩ := ih hsp
        subst hl; subst hr; subst hcs
        constructor
        · simp
        · intro hmem
          rcases List.mem_cons.mp hmem with hmem | hmem
          · exact hc hmem.symm
          · exact hnd hmem

/-! ## Evaluation of parseRange on well-shaped headers -/

theorem splitDash_cons_dash (r : List Char) : splitDash ('-' :: r) = some ([], r) := by
  simp [splitDash]

theorem rangeGroups_mkRange (a b : Nat) :
    rangeGroups (mkRangeHeader a b).data = some (natDigits a, natDigits b) := by
  show rangeGroups ("bytes=".data ++ (natDigits a ++ '-' :: natDigits b)) = _
  simp only [rangeGroups, eatLit_self_append,
    splitDash_of_no_dash (natDigits a) (natDigits b) (dash_not_mem_natDigits a)]
  simp [List.all_eq_true]
  exact ⟨natDigits_all_digit a, natDigits_all_digit b⟩

theorem rangeGroups_mkOpen (a : Nat) :
    rangeGroups (mkOpenHeader a).data = some (natDigits a, []) := by
  show rangeGroups ("bytes=".data ++ (natDigits a ++ '-' :: [])) = _
  simp only [rangeGroups, eatLit_self_append,
    splitDash_of_no_dash (natDigits a) [] (dash_not_mem_natDigits a)]
  simp [List.all_eq_true]
  exact natDigits_all_digit a

theorem rangeGroups_mkSuffix (n : Nat) :
    rangeGroups (mkSuffixHeader n).data = some ([], natDigits n) := by
  show rangeGroups ("bytes=".data ++ ('-' :: natDigits n)) = _
  simp only [rangeGroups, eatLit_self_append, splitDash_cons_dash]
  simp [List.all_eq_true]
  exact natDigits_all_digit n

theorem mkRangeHeader_data_ne_nil (a b : Nat) : (mkRangeHeader a b).data ≠ [] := by
  show "bytes=".data ++ (natDigits a ++ '-' :: natDigits b) ≠ []
  simp

theorem mkOpenHeader_data_ne_nil (a : Nat) : (mkOpenHeader a).data ≠ [] := by
  show "bytes=".data ++ (natDigits a ++ ['-']) ≠ []
  simp

theorem mkSuffixHeader_data_ne_nil (n : Nat) : (mkSuffixHeader n).data ≠ [] := by
  show "bytes=".data ++ ('-' :: natDigits n) ≠ []
  simp

/-- Closed form of `parseRange` on a `bytes=A-B` header. -/
theorem parseRange_mkRange (a b : Nat) (size : Int) :
    parseRange (some (mkRangeHeader a b)) size =
      if (b : Int) < a ∨ (a : Int) ≥ size then none
      else some ⟨a, min b (size - 1)⟩ := by
  simp only [parseRange, mkRangeHeader_data_ne_nil a b, if_false, rangeGroups_mkRange,
    natDigits_ne_nil, digitsToNat_natDigits, ne_eq, not_false_iff, if_true, ite_false,
    ite_true, false_and, and_false]
  by_cases hc : (b : Int) < a ∨ (a : Int) ≥ size
  · rw [if_pos (by omega), if_pos hc]
  · rw [if_neg (by omega), if_neg hc]

/-- Closed form of `parseRange` on a `bytes=A-` header. -/
theorem parseRange_mkOpen (a : Nat) (size : Int) :
    parseRange (some (mkOpenHeader a)) size =
      if (a : Int) ≥ size then none else some ⟨a, size - 1⟩ := by
  simp only [parseRange, mkOpenHeader_data_ne_nil a, if_false, rangeGroups_mkOpen,
    natDigits_ne_nil, digitsToNat_natDigits, ne_eq, not_false_iff, if_true, ite_false,
    ite_true, false_and, and_false, not_true]
  by_cases hc : (a : Int) ≥ size
  · rw [if_pos (by omega), if_pos hc]
  · rw [if_neg (by omega), if_neg hc]
    simp

/-- Closed form of `parseRange` on a `bytes=-N` suffix header. -/
theorem parseRange_mkSuffix (n : Nat) (size : Int) :
    parseRange (some (mkSuffixHeader n)) size =
      if n = 0 ∨ (n : Int) > size then none
      else some ⟨size - n, size - 1⟩ := by
  simp only [parseRange, mkSuffixHeader_data_ne_nil n, if_false, rangeGroups_mkSuffix,
    natDigits_ne_nil, digitsToNat_natDigits, ne_eq, not_false_iff, if_true, ite_false,
    ite_true, true_and, and_true, not_true]
  by_cases hc : n = 0 ∨ (n : Int) > size
  · rw [if_pos (by omega), if_pos hc]
  · rw [if_neg (by omega), if_neg hc]
    have : min (size - 1) (size - 1) = size - 1 := min_self _
    rw [this]

/-- Accepted headers have the `bytes=A-B` shape (digit groups around one dash). -/
theorem parseRange_some_shape {h : String} {size : Int} {r : ByteRange}
    (hp : parseRange (some h) size = some r) :
    ∃ g1 g2, h.data = "bytes=".data ++ g1 ++ '-' :: g2 ∧
      g1.all isDigitCh = true ∧ g2.all isDigitCh = true := by
  by_cases hd : h.data = []
  · simp [parseRange, hd] at hp
  · cases hg : rangeGroups h.data with
    | none => simp [parseRange, hd, hg] at hp
    | some gg =>
      obtain ⟨g1, g2⟩ := gg
      unfold rangeGroups at hg
      cases he : eatLit "bytes=".data h.data with
      | none => rw [he] at hg; exact absurd hg (by simp)
      | some rest =>
        rw [he] at hg
        simp only at hg
        cases hs : splitDash rest with
        | none => rw [hs] at hg; exact absurd hg (by simp)
        | some pr =>
          obtain ⟨l, rr⟩ := pr
          rw [hs] at hg
          simp only at hg
          split at hg
          · next hall =>
            obtain ⟨hrest, _⟩ := splitDash_some hs
            refine ⟨l, rr, ?_, ?_, ?_⟩
            · simp [eatLit_some he, hrest, List.append_assoc]
            · exact (Bool.and_eq_true _ _ |>.mp hall).1
            · exact (Bool.and_eq_true _ _ |>.mp hall).2
          · exact absurd hg (by simp)

/-- Bounds of the final clamping step of parseRange, for any computed
start and end candidates. -/
theorem rangeGuard_bounds (s1 e1 size : Int) (r : ByteRange)
    (h : (if s1 < 0 ∨ e1 < s1 ∨ s1 ≥ size then none
          else some (⟨s1, min e1 (size - 1)⟩ : ByteRange)) = some r) :
    0 ≤ r.start ∧ r.start ≤ r.stop ∧ r.stop ≤ size - 1 := by
  split at h
  · exact absurd h (by simp)
  · next hg =>
    have hr := Option.some.inj h
    subst hr
    dsimp only
    omega

/-- Definitional unfolding of `parseRange` on a present header. -/
theorem parseRange_some_eq (s : String) (size : Int) :
    parseRange (some s) size =
      (if s.data = [] then none
       else match rangeGroups s.data with
         | none => none
         | some (g1, g2) =>
           let start0 : Int := if g1 ≠ [] then (digitsToNat g1 : Int) else 0
           let end0 : Int := if g2 ≠ [] then (digitsToNat g2 : Int) else size - 1
           let start1 : Int := if g1 = [] ∧ g2 ≠ [] then size - end0 else start0
           let end1 : Int := if g1 = [] ∧ g2 ≠ [] then size - 1 else end0
           if start1 < 0 ∨ end1 < start1 ∨ start1 ≥ size then none
           else some ⟨start1, min end1 (size - 1)⟩) := rfl

/-- C9: whenever parseRange returns a result, it satisfies
`0 ≤ start ≤ end ≤ size - 1`, so the derived Content-Length is at least 1 and
every slice taken from it is in bounds. -/
theorem parseRange_bounds (h : Option String) (size : Int) (r : ByteRange)
    (hp : parseRange h size = some r) :
    0 ≤ r.start ∧ r.start ≤ r.stop ∧ r.stop ≤ size - 1 := by
  cases h with
  | none => exact absurd hp (by simp [parseRange])
  | some s =>
    rw [parseRange_some_eq] at hp
    split at hp
    · exact absurd hp (by simp)
    · cases hg : rangeGroups s.data with
      | none => rw [hg] at hp; exact absurd hp (by simp)
      | some gg =>
        obtain ⟨g1, g2⟩ := gg
        rw [hg] at hp
        simp only at hp
        exact rangeGuard_bounds _ _ _ _ hp

/-- Witness for C9 at a concrete accepted range. -/
theorem parseRange_bounds_witness :
    0 ≤ (2 : Int) ∧ (2 : Int) ≤ 5 ∧ (5 : Int) ≤ 10 - 1 :=
  parseRange_bounds (some (mkRangeHeader 2 5)) 10 ⟨2, 5⟩ (by decide)

/-- C5: range parsing accepts only `bytes=A-B` syntax and follows the spec
table: `A-B` gives A..B with B clamped to size-1; `A-` gives A..end; `-N` gives
the last N bytes; missing header, malformed syntax, `A > B`, `A ≥ size`,
oversized suffixes and the zero-length suffix `bytes=-0` are all rejected
(null means serve the whole object); negative values never match the digit
syntax. -/
theorem parseRange_spec_table (size : Int) :
    parseRange none size = none
    ∧ (∀ h r, parseRange (some h) size = some r →
        ∃ g1 g2, h.data = "bytes=".data ++ g1 ++ '-' :: g2 ∧
          g1.all isDigitCh = true ∧ g2.all isDigitCh = true)
    ∧ (∀ a b : Nat, (a : Int) ≤ b → (a : Int) < size →
        parseRange (some (mkRangeHeader a b)) size = some ⟨a, min b (size - 1)⟩)
    ∧ (∀ a b : Nat, (b : Int) < a → parseRange (some (mkRangeHeader a b)) size = none)
    ∧ (∀ a b : Nat, (a : Int) ≥ size → parseRange (some (mkRangeHeader a b)) size = none)
    ∧ (∀ a : Nat, (a : Int) < size → parseRange (some (mkOpenHeader a)) size = some ⟨a, size - 1⟩)
    ∧ (∀ a : Nat, (a : Int) ≥ size → parseRange (some (mkOpenHeader a)) size = none)
    ∧ (∀ n : Nat, 1 ≤ n → (n : Int) ≤ size →
        parseRange (some (mkSuffixHeader n)) size = some ⟨size - n, size - 1⟩)
    ∧ (∀ n : Nat, (n : Int) > size → parseRange (some (mkSuffixHeader n)) size = none)
    ∧ parseRange (some (mkSuffixHeader 0)) size = none := by
  refine ⟨rfl, fun h r hp => parseRange_some_shape hp, ?_, ?_, ?_, ?_, ?_, ?_, ?_, ?_⟩
  · intro a b hab ha
    rw [parseRange_mkRange, if_neg (by omega)]
  · intro a b hba
    rw [parseRange_mkRange, if_pos (by omega)]
  · intro a b ha
    rw [parseRange_mkRange, if_pos (by omega)]
  · intro a ha
    rw [parseRange_mkOpen, if_neg (by omega)]
  · intro a ha
    rw [parseRange_mkOpen, if_pos (by omega)]
  · intro n h1 h2
    rw [parseRange_mkSuffix, if_neg (by omega)]
  · intro n hn
    rw [parseRange_mkSuffix, if_pos (by omega)]
  · rw [parseRange_mkSuffix, if_pos (by omega)]

/-- Witness for C5 at concrete inputs: a clamped two-sided range is accepted
and the zero-length suffix is rejected, at size 10. -/
theorem parseRange_spec_table_witness :
    parseRange (some (mkRangeHeader 2 100)) 10 = some ⟨2, 9⟩
    ∧ parseRange (some (mkSuffixHeader 0)) 10 = none := by
  constructor
  · have h := (parseRange_spec_table 10).2.2.1 2 100 (by norm_num) (by norm_num)
    rw [h]
    norm_num
  · exact (parseRange_spec_table 10).2.2.2.2.2.2.2.2.2

/-! ## Slice lemmas for the assembler proof -/

theorem sliceIncl_nil (a b : Nat) : sliceIncl [] a b = [] := by
  simp [sliceIncl]

theorem sliceIncl_append (x y : List Nat) (a b : Nat) :
    sliceIncl (x ++ y) a b =
      (x.drop a).take (b - a + 1) ++ (y.drop (a - x.length)).take (b - a + 1 - (x.length - a)) := by
  simp [sliceIncl, List.drop_append_eq_append_drop, List.take_append_eq_append_take,
    List.length_drop]

theorem sliceIncl_append_left (x y : List Nat) (a b : Nat) (hab : a ≤ b) (hb : b < x.length) :
    sliceIncl (x ++ y) a b = sliceIncl x a b := by
  rw [sliceIncl_append]
  have h2 : b - a + 1 - (x.length - a) = 0 := by omega
  rw [h2]
  simp [sliceIncl]

theorem sliceIncl_append_right (x y : List Nat) (a b : Nat) (ha : x.length ≤ a) :
    sliceIncl (x ++ y) a b = sliceIncl y (a - x.length) (b - x.length) := by
  rw [sliceIncl_append, List.drop_of_length_le ha]
  have h2 : b - a + 1 - (x.length - a) = b - x.length - (a - x.length) + 1 := by omega
  rw [h2]
  simp [sliceIncl]

theorem sliceIncl_append_split (x y : List Nat) (a b : Nat)
    (ha : a < x.length) (hb : x.length ≤ b) :
    sliceIncl (x ++ y) a b = sliceIncl x a (x.length - 1) ++ sliceIncl y 0 (b - x.length) := by
  rw [sliceIncl_append]
  have h1 : a - x.length = 0 := by omega
  have h2 : b - a + 1 - (x.length - a) = b - x.length + 1 := by omega
  rw [h1, h2]
  have t1 : (x.drop a).take (b - a + 1) = x.drop a :=
    List.take_of_length_le (by simp [List.length_drop]; omega)
  have t2 : sliceIncl x a (x.length - 1) = x.drop a := by
    unfold sliceIncl
    exact List.take_of_length_le (by simp [List.length_drop]; omega)
  have t3 : sliceIncl y 0 (b - x.length) = (y.drop 0).take (b - x.length + 1) := by
    unfold sliceIncl
    congr 1
  rw [t1, t2, t3]

theorem jsSliceU8_eq_sliceIncl (l : List Nat) (s e : Int)
    (hs : 0 ≤ s) (hse : s ≤ e) (hlen : s < (l.length : Int)) :
    jsSliceU8 l s (e + 1) = sliceIncl l s.toNat e.toNat := by
  unfold jsSliceU8 jsIdx sliceIncl
  rw [if_neg (by omega), if_neg (by omega)]
  rcases le_or_lt ((e + 1).toNat) l.length with hle | hlt
  · have h1 : min s.toNat l.length = s.toNat := by omega
    have h2 : min (e + 1).toNat l.length = (e + 1).toNat := by omega
    rw [h1, h2]
    congr 1
    omega
  · have h1 : min s.toNat l.length = s.toNat := by omega
    have h2 : min (e + 1).toNat l.length = l.length := by omega
    rw [h1, h2]
    have t1 : (l.drop s.toNat).take (l.length - s.toNat) = l.drop s.toNat :=
      List.take_of_length_le (by simp [List.length_drop])
    have t2 : (l.drop s.toNat).take (e.toNat - s.toNat + 1) = l.drop s.toNat :=
      List.take_of_length_le (by simp [List.length_drop]; omega)
    rw [t1, t2]

theorem readFileRange_eq_sliceIncl (fs : Fs) (path : String) (s e : Int)
    (hs : 0 ≤ s) (hse : s ≤ e) :
    readFileRange fs path s e = sliceIncl ((fs path).getD []) s.toNat e.toNat := by
  unfold readFileRange sliceIncl
  congr 1
  omega

/-! ## Segment arithmetic -/

theorem sumSizes_shift (l : List AudioSegment) :
    ∀ init : Int, l.foldl (fun acc s => acc + s.size) init = init + sumSizes l := by
  induction l with
  | nil => intro init; simp [sumSizes]
  | cons f rest ih =>
    intro init
    show rest.foldl _ (init + f.size) = init + sumSizes (f :: rest)
    have hc : sumSizes (f :: rest) = rest.foldl (fun acc s => acc + s.size) (0 + f.size) := rfl
    rw [ih (init + f.size), hc, ih (0 + f.size)]
    ring

theorem sumSizes_cons (f : AudioSegment) (rest : List AudioSegment) :
    sumSizes (f :: rest) = f.size + sumSizes rest := by
  have hc : sumSizes (f :: rest) = rest.foldl (fun acc s => acc + s.size) (0 + f.size) := rfl
  rw [hc, sumSizes_shift rest (0 + f.size)]
  ring

theorem segOkB_cons {fs : Fs} {c : Int} {f : AudioSegment} {rest : List AudioSegment}
    (h : segOkB fs c (f :: rest) = true) :
    ∃ bytes, fs f.path = some bytes ∧ f.start = c ∧ f.size = (bytes.length : Int) ∧
      0 < f.size ∧ f.stop = c + f.size - 1 ∧ segOkB fs (c + f.size) rest = true := by
  unfold segOkB at h
  cases hf : fs f.path with
  | none => rw [hf] at h; exact absurd h (by simp)
  | some bytes =>
    rw [hf] at h
    simp only [Bool.and_eq_true, beq_iff_eq, decide_eq_true_eq] at h
    exact ⟨bytes, rfl, h.1.1.1.1, h.1.1.1.2, h.1.1.2, h.1.2, h.2⟩

theorem audioJoin_length {fs : Fs} :
    ∀ {segs : List AudioSegment} {c : Int}, segOkB fs c segs = true →
      ((audioJoin fs segs).length : Int) = sumSizes segs := by
  intro segs
  induction segs with
  | nil => intro c _; simp [audioJoin, sumSizes]
  | cons f rest ih =>
    intro c h
    obtain ⟨bytes, hf, _, hsize, _, _, hrest⟩ := segOkB_cons h
    have hj : audioJoin fs (f :: rest) = bytes ++ audioJoin fs rest := by
      simp [audioJoin, hf]
    rw [hj, List.length_append, sumSizes_cons]
    push_cast
    rw [ih hrest]
    omega

theorem segsFor_drop_all (fs : Fs) :
    ∀ (segs : List AudioSegment) (c a b : Int), segOkB fs c segs = true → b < c →
      segmentsForRange segs a b = [] := by
  intro segs
  induction segs with
  | nil => intro c a b _ _; rfl
  | cons f rest ih =>
    intro c a b hok hbc
    obtain ⟨bytes, hfs, hstart, hsize, hpos, hstop, hrest⟩ := segOkB_cons hok
    have hgone : f.stop < a ∨ f.start > b := by omega
    simp only [segmentsForRange, List.filterMap_cons, if_pos hgone]
    exact ih (c + f.size) a b hrest (by omega)

theorem segsFor_ne_nil (fs : Fs) :
    ∀ (segs : List AudioSegment) (c a b : Int),
      segOkB fs c segs = true → c ≤ a → a ≤ b → a < c + sumSizes segs →
      segmentsForRange segs a b ≠ [] := by
  intro segs
  induction segs with
  | nil =>
    intro c a b _ hca hab hlt
    simp [sumSizes] at hlt
    omega
  | cons f rest ih =>
    intro c a b hok hca hab hlt
    obtain ⟨bytes, hfs, hstart, hsize, hpos, hstop, hrest⟩ := segOkB_cons hok
    by_cases hkeep : f.stop < a
    · have hgone : f.stop < a ∨ f.start > b := Or.inl hkeep
      simp only [segmentsForRange, List.filterMap_cons, if_pos hgone]
      rw [sumSizes_cons] at hlt
      exact ih (c + f.size) a b hrest (by omega) hab (by omega)
    · have hk : ¬(f.stop < a ∨ f.start > b) := by omega
      simp [segmentsForRange, List.filterMap_cons, if_neg hk]

/-- Central assembler lemma: the bytes streamed for the clipped segments of a
contiguous block starting at absolute offset `c` are exactly the inclusive
slice `[a-c, b-c]` of the concatenated part contents. -/
theorem streamSegments_segsFor (fs : Fs) :
    ∀ (segs : List AudioSegment) (c a b : Int),
      segOkB fs c segs = true → a ≤ b → c ≤ b →
      streamSegments fs (segmentsForRange segs a b) =
        sliceIncl (audioJoin fs segs) (a - c).toNat (b - c).toNat := by
  intro segs
  induction segs with
  | nil =>
    intro c a b _ _ _
    simp [segmentsForRange, streamSegments, audioJoin, sliceIncl]
  | cons f rest ih =>
    intro c a b hok hab hcb
    obtain ⟨bytes, hfs, hstart, hsize, hpos, hstop, hrest⟩ := segOkB_cons hok
    have hjoin : audioJoin fs (f :: rest) = bytes ++ audioJoin fs rest := by
      simp [audioJoin, hfs]
    by_cases hdrop : f.stop < a
    · have hgone : f.stop < a ∨ f.start > b := Or.inl hdrop
      simp only [segmentsForRange, List.filterMap_cons, if_pos hgone]
      show streamSegments fs (segmentsForRange rest a b) = _
      rw [ih (c + f.size) a b hrest hab (by omega), hjoin,
        sliceIncl_append_right _ _ _ _ (by omega)]
      congr 1 <;> omega
    · have hk : ¬(f.stop < a ∨ f.start > b) := by omega
      simp only [segmentsForRange, List.filterMap_cons, if_neg hk]
      show streamSegments fs ({ f with
          start := max a f.start - f.start,
          stop := min b f.stop - f.start } :: segmentsForRange rest a b) = _
      have hcons : streamSegments fs ({ f with
          start := max a f.start - f.start,
          stop := min b f.stop - f.start } :: segmentsForRange rest a b) =
          readFileRange fs f.path (max a f.start - f.start) (min b f.stop - f.start) ++
            streamSegments fs (segmentsForRange rest a b) := by
        simp [streamSegments]
      rw [hcons, readFileRange_eq_sliceIncl fs f.path _ _ (by omega) (by omega), hfs]
      by_cases hin : b < c + f.size
      · have hrestnil : segmentsForRange rest a b =
            [] := segsFor_drop_all fs rest (c + f.size) a b hrest (by omega)
        rw [hrestnil, hjoin, sliceIncl_append_left _ _ _ _ (by omega) (by omega)]
        show sliceIncl bytes _ _ ++ streamSegments fs [] = _
        have hnil : streamSegments fs [] = [] := by simp [streamSegments]
        rw [hnil, List.append_nil]
        show sliceIncl ((some bytes).getD []) _ _ = _
        congr 1 <;> omega
      · rw [ih (c + f.size) a b hrest hab (by omega), hjoin,
          sliceIncl_append_split _ _ _ _ (by omega) (by omega)]
        congr 1
        · show sliceIncl ((some bytes).getD []) _ _ = _
          congr 1 <;> omega
        · congr 1 <;> omega

/-! ## Reduction lemmas for handleStream -/

theorem handleStream_single_eq (fs : Fs) (book : Book) (p : String) (h : Option String)
    (hk : book.kind = .single) (hp : book.primaryFile = some p) :
    handleStream fs book h = handleStreamSingle fs book p h := by
  unfold handleStream
  rw [hk, hp]

theorem handleStream_multi_eq (fs : Fs) (book : Book) (h : Option String)
    (hk : book.kind = .multi) :
    handleStream fs book h = handleStreamMulti fs book h := by
  unfold handleStream
  rw [hk]

theorem wfBook_single {fs : Fs} {book : Book} (hk : book.kind = .single)
    (hwf : wfBook fs book = true) :
    ∃ p bytes, book.primaryFile = some p ∧ fs p = some bytes ∧
      book.totalSize = (bytes.length : Int) := by
  unfold wfBook at hwf
  rw [hk] at hwf
  simp only at hwf
  cases hp : book.primaryFile with
  | none => rw [hp] at hwf; exact absurd hwf (by simp)
  | some p =>
    rw [hp] at hwf
    simp only at hwf
    cases hb : fs p with
    | none => rw [hb] at hwf; exact absurd hwf (by simp)
    | some bytes =>
      rw [hb] at hwf
      simp only [beq_iff_eq] at hwf
      exact ⟨p, bytes, rfl, hb, hwf⟩

theorem wfBook_multi {fs : Fs} {book : Book} (hk : book.kind = .multi)
    (hwf : wfBook fs book = true) :
    ∃ fl, book.files = some fl ∧ fl ≠ [] ∧ segOkB fs 0 fl = true ∧
      book.totalSize = sumSizes fl := by
  unfold wfBook at hwf
  rw [hk] at hwf
  simp only at hwf
  cases hf : book.files with
  | none => rw [hf] at hwf; exact absurd hwf (by simp)
  | some fl =>
    rw [hf] at hwf
    simp only [Bool.and_eq_true, Bool.not_eq_true', beq_iff_eq] at hwf
    refine ⟨fl, rfl, ?_, hwf.1.2, hwf.2⟩
    intro hnil
    subst hnil
    simp at hwf

theorem buildChapterTimings_multi {book : Book} {fl : List AudioSegment}
    (hk : book.kind = .multi) (hf : book.files = some fl) :
    buildChapterTimings book = some (timingsGo fl 0 0) := by
  unfold buildChapterTimings
  rw [hk, hf]

theorem virtualObject_multi (fs : Fs) (book : Book) (hk : book.kind = .multi) :
    virtualObject fs book = tagOf fs book ++ audioJoin fs (book.files.getD []) := by
  unfold virtualObject
  rw [hk]

theorem virtualObject_single (fs : Fs) (book : Book) (p : String)
    (hk : book.kind = .single) (hp : book.primaryFile = some p) :
    virtualObject fs book = (fs p).getD [] := by
  unfold virtualObject
  rw [hk, hp]

/-- Body produced by the multi path for an in-bounds resolved range `[A, B]`:
it equals the inclusive slice of `tag ‖ audio`. -/
theorem multiRespond_eq (fs : Fs) (book : Book) (rangeHeader : Option String)
    (T : List Nat) (fl : List AudioSegment) (A B : Int)
    (hf : book.files = some fl)
    (hok : segOkB fs 0 fl = true)
    (hts : book.totalSize = sumSizes fl)
    (hA : 0 ≤ A) (hab : A ≤ B) (hB : B < (T.length : Int) + book.totalSize) :
    multiRespond fs book rangeHeader T ⟨A, B⟩ =
      { status := if hdrTruthy rangeHeader then 206 else 200
        contentLength := some (B - A + 1)
        contentRange :=
          if hdrTruthy rangeHeader then
            some (ContentRange.rng A B ((T.length : Int) + book.totalSize))
          else none
        body := sliceIncl (T ++ audioJoin fs fl) A.toNat B.toNat } := by
  have hlenA : ((audioJoin fs fl).length : Int) = sumSizes fl := audioJoin_length hok
  have hsum_nonneg : 0 ≤ sumSizes fl := by
    rw [← hlenA]; positivity
  simp only [multiRespond, hf, Option.getD_some]
  rw [if_neg (by omega)]
  by_cases hTag : A < (T.length : Int)
  · by_cases hAud : B ≥ (T.length : Int)
    · -- range covers the tag boundary: tag tail plus leading audio
      have hne : segmentsForRange fl (max A (T.length : Int) - (T.length : Int))
          (B - (T.length : Int)) ≠ [] := by
        apply segsFor_ne_nil fs fl 0 _ _ hok (by omega) (by omega)
        omega
      rw [if_neg (by omega)]
      rw [if_pos hAud]
      rw [if_neg (fun hcon => hne (List.length_eq_zero.mp hcon.2))]
      simp only [StreamResponse.mk.injEq]
      refine ⟨trivial, trivial, trivial, ?_⟩
      rw [if_pos hTag, if_pos hAud]
      have hmin : min B ((T.length : Int) - 1) = (T.length : Int) - 1 := by omega
      rw [hmin]
      rw [jsSliceU8_eq_sliceIncl T A _ hA (by omega) (by omega)]
      rw [streamSegments_segsFor fs fl 0 _ _ hok (by omega) (by omega)]
      rw [sliceIncl_append_split _ _ _ _ (by omega) (by omega)]
      congr 1
      · congr 1
        omega
      · congr 1 <;> omega
    · -- range entirely inside the tag
      rw [if_pos (by omega)]
      simp only [StreamResponse.mk.injEq]
      refine ⟨trivial, trivial, trivial, ?_⟩
      have hmin : min B ((T.length : Int) - 1) = B := by omega
      rw [hmin]
      rw [jsSliceU8_eq_sliceIncl T A B hA hab (by omega)]
      rw [sliceIncl_append_left _ _ _ _ (by omega) (by omega)]
  · -- range entirely inside the audio
    have hAud : B ≥ (T.length : Int) := by omega
    have hne : segmentsForRange fl (max A (T.length : Int) - (T.length : Int))
        (B - (T.length : Int)) ≠ [] := by
      apply segsFor_ne_nil fs fl 0 _ _ hok (by omega) (by omega)
      omega
    rw [if_neg (by omega)]
    rw [if_pos hAud]
    rw [if_neg (fun hcon => hne (List.length_eq_zero.mp hcon.2))]
    simp only [StreamResponse.mk.injEq]
    refine ⟨trivial, trivial, trivial, ?_⟩
    rw [if_neg hTag, if_pos hAud]
    rw [streamSegments_segsFor fs fl 0 _ _ hok (by omega) (by omega)]
    rw [List.nil_append, sliceIncl_append_right _ _ _ _ (by omega)]
    congr 1 <;> omega

/-- C1: for every well-formed Book and every valid byte range `[A, B]` with
`A ≤ B` and `B < virtual_size`, the body bytes produced by the stream handler
for the header `bytes=A-B` are exactly bytes `A..B` of the logical object
`tag ‖ audio` (tag empty for single books). -/
theorem handleStream_body_range (fs : Fs) (book : Book) (A B : Nat)
    (hwf : wfBook fs book = true) (hab : A ≤ B)
    (hB : B < (virtualObject fs book).length) :
    (handleStream fs book (some (mkRangeHeader A B))).body =
      sliceIncl (virtualObject fs book) A B := by
  cases hk : book.kind with
  | single =>
    obtain ⟨p, bytes, hp, hfsp, hsize⟩ := wfBook_single hk hwf
    have hvo : virtualObject fs book = bytes := by
      rw [virtualObject_single fs book p hk hp, hfsp]
      rfl
    rw [hvo] at hB ⊢
    rw [handleStream_single_eq fs book p _ hk hp]
    unfold handleStreamSingle
    dsimp only
    rw [parseRange_mkRange, if_neg (by omega)]
    simp only [Option.getD_some]
    have hmin : min (B : Int) (book.totalSize - 1) = (B : Int) := by omega
    rw [hmin]
    show jsSliceU8 ((fs p).getD []) (A : Int) ((B : Int) + 1) = _
    rw [hfsp]
    show jsSliceU8 bytes (A : Int) ((B : Int) + 1) = _
    rw [jsSliceU8_eq_sliceIncl bytes A B (by positivity) (by omega) (by omega)]
    congr 1
  | multi =>
    obtain ⟨fl, hf, hne, hok, hts⟩ := wfBook_multi hk hwf
    have htw : buildChapterTimings book = some (timingsGo fl 0 0) :=
      buildChapterTimings_multi hk hf
    have htag : tagOf fs book = buildId3ChaptersTag (timingsGo fl 0 0) (coverArtOf fs book) := by
      unfold tagOf
      rw [htw]
      rfl
    have hvo : virtualObject fs book =
        buildId3ChaptersTag (timingsGo fl 0 0) (coverArtOf fs book) ++ audioJoin fs fl := by
      rw [virtualObject_multi fs book hk, htag, hf]
      rfl
    have hlenA : ((audioJoin fs fl).length : Int) = sumSizes fl := audioJoin_length hok
    have hvlen : ((virtualObject fs book).length : Int) =
        ((buildId3ChaptersTag (timingsGo fl 0 0) (coverArtOf fs book)).length : Int) +
          book.totalSize := by
      rw [hvo, List.length_append]
      push_cast
      rw [hlenA, hts]
    rw [handleStream_multi_eq fs book _ hk]
    unfold handleStreamMulti
    rw [htw]
    simp only
    rw [parseRange_mkRange, if_neg (by omega)]
    simp only [Option.getD_some]
    rw [hvo] at hB ⊢
    have hmin : min (B : Int)
        (((buildId3ChaptersTag (timingsGo fl 0 0) (coverArtOf fs book)).length : Int) +
          book.totalSize - 1) = (B : Int) := by
      have := hvlen
      rw [hvo] at this
      omega
    rw [hmin]
    rw [multiRespond_eq fs book _ _ fl (A : Int) (B : Int) hf hok hts
      (by positivity) (by omega) (by
        have := hvlen
        rw [hvo] at this
        omega)]
    show sliceIncl _ _ _ = _
    congr 1

/-! ## Concrete fixtures for witnesses and counterexamples -/

/-- Concrete filesystem with two part files of sizes 3 and 4. -/
def fsX : Fs := fun p =>
  if p = "/lib/a/b/01.mp3" then some [10, 11, 12]
  else if p = "/lib/a/b/02.mp3" then some [20, 21, 22, 23]
  else none

def segX1 : AudioSegment :=
  { path := "/lib/a/b/01.mp3", name := "01.mp3", size := 3, start := 0, stop := 2
    durationMs := 1000 }

def segX2 : AudioSegment :=
  { path := "/lib/a/b/02.mp3", name := "02.mp3", size := 4, start := 3, stop := 6
    durationMs := 2000 }

/-- Concrete multi book over the two parts. -/
def bookX : Book :=
  { id := "a-b", title := "B", author := "A", kind := .multi, mime := "audio/mpeg"
    totalSize := 7, files := some [segX1, segX2] }

set_option maxRecDepth 100000 in
/-- Witness for C1 at the concrete book and the range `bytes=2-5`. -/
theorem handleStream_body_range_witness :
    wfBook fsX bookX = true ∧
    (handleStream fsX bookX (some (mkRangeHeader 2 5))).body =
      sliceIncl (virtualObject fsX bookX) 2 5 :=
  ⟨by decide, handleStream_body_range fsX bookX 2 5 (by decide) (by decide) (by decide)⟩

theorem sliceIncl_full (l : List Nat) : sliceIncl l 0 (l.length - 1) = l := by
  unfold sliceIncl
  rw [List.drop_zero]
  cases l with
  | nil => rfl
  | cons a t => rw [List.take_of_length_le (by simp)]

/-- C6 (amended): a range request whose start is at or beyond the virtual size
is rejected by parseRange, so the handler never reaches its 416 branch; it
serves the whole object instead (the status is 200 or 206, never 416). -/
theorem handleStream_start_beyond (fs : Fs) (book : Book) (A : Nat)
    (hwf : wfBook fs book = true)
    (hpos : 0 < (virtualObject fs book).length)
    (hA : ((virtualObject fs book).length : Int) ≤ (A : Int)) :
    (handleStream fs book (some (mkOpenHeader A))).status ≠ 416 ∧
    (handleStream fs book (some (mkOpenHeader A))).body = virtualObject fs book := by
  cases hk : book.kind with
  | single =>
    obtain ⟨p, bytes, hp, hfsp, hsize⟩ := wfBook_single hk hwf
    have hvo : virtualObject fs book = bytes := by
      rw [virtualObject_single fs book p hk hp, hfsp]
      rfl
    rw [hvo] at hA
    rw [handleStream_single_eq fs book p _ hk hp]
    unfold handleStreamSingle
    dsimp only
    rw [parseRange_mkOpen, if_pos (by omega)]
    constructor
    · simp
    · show (fs p).getD [] = _
      rw [hfsp, hvo]
      rfl
  | multi =>
    obtain ⟨fl, hf, hne, hok, hts⟩ := wfBook_multi hk hwf
    have htw : buildChapterTimings book = some (timingsGo fl 0 0) :=
      buildChapterTimings_multi hk hf
    have htag : tagOf fs book = buildId3ChaptersTag (timingsGo fl 0 0) (coverArtOf fs book) := by
      unfold tagOf
      rw [htw]
      rfl
    have hvo : virtualObject fs book =
        buildId3ChaptersTag (timingsGo fl 0 0) (coverArtOf fs book) ++ audioJoin fs fl := by
      rw [virtualObject_multi fs book hk, htag, hf]
      rfl
    have hlenA : ((audioJoin fs fl).length : Int) = sumSizes fl := audioJoin_length hok
    have hvlen : ((virtualObject fs book).length : Int) =
        ((buildId3ChaptersTag (timingsGo fl 0 0) (coverArtOf fs book)).length : Int) +
          book.totalSize := by
      rw [hvo, List.length_append]
      push_cast
      rw [hlenA, hts]
    rw [handleStream_multi_eq fs book _ hk]
    unfold handleStreamMulti
    rw [htw]
    simp only
    rw [parseRange_mkOpen, if_pos (by omega)]
    simp only [Option.getD_none]
    rw [multiRespond_eq fs book _ _ fl 0 _ hf hok hts (le_refl 0) (by omega) (by omega)]
    constructor
    · by_cases hh : hdrTruthy (some (mkOpenHeader A)) = true
      · simp [hh]
      · simp at hh
        simp [hh]
    · show sliceIncl _ _ _ = _
      rw [hvo]
      have h0 : ((0 : Int)).toNat = 0 := rfl
      have h1 : (((buildId3ChaptersTag (timingsGo fl 0 0) (coverArtOf fs book)).length : Int) +
          book.totalSize - 1).toNat =
          (buildId3ChaptersTag (timingsGo fl 0 0) (coverArtOf fs book) ++
            audioJoin fs fl).length - 1 := by
        have := hvlen
        rw [hvo] at this
        omega
      rw [h0, h1, sliceIncl_full]

set_option maxRecDepth 100000 in
/-- Counterexample for C6 as stated: at a concrete well-formed multi book,
a range whose start (1000) is beyond the virtual size yields status 206 with
the full object, not 416 with `Content-Range: bytes */total`. -/
theorem handleStream_start_beyond_counterexample :
    (handleStream fsX bookX (some (mkOpenHeader 1000))).status = 206 ∧
    (handleStream fsX bookX (some (mkOpenHeader 1000))).contentRange ≠
      some (ContentRange.unsat ((virtualObject fsX bookX).length : Int)) := by
  decide

set_option maxRecDepth 100000 in
/-- Witness for the amended C6 at the concrete book. -/
theorem handleStream_start_beyond_witness :
    (handleStream fsX bookX (some (mkOpenHeader 1000))).status ≠ 416 ∧
    (handleStream fsX bookX (some (mkOpenHeader 1000))).body = virtualObject fsX bookX :=
  handleStream_start_beyond fsX bookX 1000 (by decide) (by decide) (by decide)

/-! ## Scanner model for multi books (src/library/index.ts, buildBook mp3 loop) -/

def normalizeAudioExt (ext : String) : String :=
  let lower := lowerStr ext
  if lower = ".mp3" then "mp3"
  else if lower = ".m4a" ∨ lower = ".m4b" ∨ lower = ".mp4" then "m4a"
  else "mp3"

def mimeFromExt (ext : String) : String :=
  if normalizeAudioExt ext = "m4a" then "audio/mp4" else "audio/mpeg"

/-- Per-part inputs resolved by the scanner: the stat result (size, `none`
when stat failed), the probe duration rounded to ms (`none` when missing),
and the embedded track title. -/
structure PartIn where
  name : String
  path : String
  stat : Option Int
  durationMs : Option Int
  title : Option String
deriving DecidableEq, Repr

/-- Loop body of buildBook for multi books: walk the sorted parts keeping byte
and millisecond cursors; a missing stat, zero size or missing duration aborts
the book. -/
def buildSegmentsLoop : List PartIn → Int → Int → Option (List AudioSegment)
  | [], _, _ => some []
  | p :: rest, cursor, cursorMs =>
    match p.stat with
    | none => none
    | some size =>
      if size ≤ 0 then none
      else
        match p.durationMs with
        | none => none
        | some d =>
          let durationMs := max 0 d
          let seg : AudioSegment :=
            { path := p.path, name := p.name, size := size, start := cursor
              stop := cursor + size - 1, durationMs := durationMs, title := p.title }
          (buildSegmentsLoop rest (cursor + size) (cursorMs + durationMs)).map (seg :: ·)

/-- Model of the multi branch of `buildBook` (fields not derived from the
parts keep their defaults). -/
def buildMultiBook (id displayTitle displayAuthor : String) (parts : List PartIn) :
    Option Book :=
  match buildSegmentsLoop parts 0 0 with
  | none => none
  | some segments =>
    if segments.length = 0 then none
    else some
      { id := id, title := displayTitle, author := displayAuthor
        kind := .multi
        mime := mimeFromExt (extname ((parts.map (·.name)).headD ""))
        totalSize := sumSizes segments
        files := some segments }

theorem buildSegmentsLoop_inv :
    ∀ (parts : List PartIn) (c cm : Int) (segs : List AudioSegment),
      buildSegmentsLoop parts c cm = some segs →
      ∀ i (hi : i < segs.length),
        (segs.get ⟨i, hi⟩).start = c + sumSizes (segs.take i) ∧
        (segs.get ⟨i, hi⟩).stop =
          (segs.get ⟨i, hi⟩).start + (segs.get ⟨i, hi⟩).size - 1 := by
  intro parts
  induction parts with
  | nil =>
    intro c cm segs h i hi
    have h' : some ([] : List AudioSegment) = some segs := h
    obtain rfl := Option.some.inj h'
    simp at hi
  | cons p rest ih =>
    intro c cm segs h i hi
    unfold buildSegmentsLoop at h
    cases hstat : p.stat with
    | none => simp only [hstat] at h; exact absurd h (by simp)
    | some size =>
      simp only [hstat] at h
      split at h
      · exact absurd h (by simp)
      · next hsz =>
        cases hdur : p.durationMs with
        | none => simp only [hdur] at h; exact absurd h (by simp)
        | some d =>
          simp only [hdur] at h
          cases hrest : buildSegmentsLoop rest (c + size) (cm + max 0 d) with
          | none => simp only [hrest, Option.map_none] at h; exact absurd h (by simp)
          | some segs' =>
            simp only [hrest, Option.map_some', Option.some.injEq] at h
            subst h
            cases i with
            | zero =>
              constructor
              · show c = c + sumSizes []
                simp [sumSizes]
              · rfl
            | succ i =>
              have hi' : i < segs'.length := by
                simpa using hi
              obtain ⟨h1, h2⟩ := ih (c + size) (cm + max 0 d) segs' hrest i hi'
              constructor
              · show (segs'.get ⟨i, hi'⟩).start = _
                rw [h1]
                show _ = c + sumSizes (_ :: segs'.take i)
                rw [sumSizes_cons]
                ring
              · exact h2

/-- C3: every multi Book produced by the scanner satisfies
`files[i].start = Σ_{k<i} files[k].size`,
`files[i].end = files[i].start + files[i].size - 1`, and
`totalSize = Σ files[k].size`, so the segments are byte-contiguous and cover
`[0, totalSize)` exactly. -/
theorem buildMultiBook_invariants (id t a : String) (parts : List PartIn) (book : Book)
    (h : buildMultiBook id t a parts = some book) :
    ∃ fl, book.files = some fl ∧
      (∀ i (hi : i < fl.length),
        (fl.get ⟨i, hi⟩).start = sumSizes (fl.take i) ∧
        (fl.get ⟨i, hi⟩).stop = (fl.get ⟨i, hi⟩).start + (fl.get ⟨i, hi⟩).size - 1) ∧
      book.totalSize = sumSizes fl := by
  unfold buildMultiBook at h
  cases hloop : buildSegmentsLoop parts 0 0 with
  | none => rw [hloop] at h; exact absurd h (by simp)
  | some segments =>
    rw [hloop] at h
    simp only at h
    split at h
    · exact absurd h (by simp)
    · simp only [Option.some.injEq] at h
      subst h
      refine ⟨segments, rfl, ?_, rfl⟩
      intro i hi
      have := buildSegmentsLoop_inv parts 0 0 segments hloop i hi
      simpa using this

/-- Witness book for the scanner claims. -/
def partY1 : PartIn :=
  { name := "01.mp3", path := "/lib/a/b/01.mp3", stat := some 3
    durationMs := some 1000, title := none }

def partY2 : PartIn :=
  { name := "02.mp3", path := "/lib/a/b/02.mp3", stat := some 4
    durationMs := some 2000, title := none }

def bookY : Book :=
  { id := "a-b", title := "B", author := "A", kind := .multi, mime := "audio/mpeg"
    totalSize := 7, files := some [segX1, segX2] }

/-- Witness for C3 at a concrete two-part book. -/
theorem buildMultiBook_invariants_witness :
    ∃ fl, bookY.files = some fl ∧
      (∀ i (hi : i < fl.length),
        (fl.get ⟨i, hi⟩).start = sumSizes (fl.take i) ∧
        (fl.get ⟨i, hi⟩).stop = (fl.get ⟨i, hi⟩).start + (fl.get ⟨i, hi⟩).size - 1) ∧
      bookY.totalSize = sumSizes fl :=
  buildMultiBook_invariants "a-b" "B" "A" [partY1, partY2] bookY (by decide)

/-! ## Chapter timing invariants (C4) -/

def sumDur (files : List AudioSegment) : Int :=
  files.foldl (fun acc s => acc + s.durationMs) 0

theorem sumDur_shift (l : List AudioSegment) :
    ∀ init : Int, l.foldl (fun acc s => acc + s.durationMs) init = init + sumDur l := by
  induction l with
  | nil => intro init; simp [sumDur]
  | cons f rest ih =>
    intro init
    show rest.foldl _ (init + f.durationMs) = init + sumDur (f :: rest)
    have hc : sumDur (f :: rest) = rest.foldl (fun acc s => acc + s.durationMs) (0 + f.durationMs) := rfl
    rw [ih (init + f.durationMs), hc, ih (0 + f.durationMs)]
    ring

theorem sumDur_cons (f : AudioSegment) (rest : List AudioSegment) :
    sumDur (f :: rest) = f.durationMs + sumDur rest := by
  have hc : sumDur (f :: rest) = rest.foldl (fun acc s => acc + s.durationMs) (0 + f.durationMs) := rfl
  rw [hc, sumDur_shift rest (0 + f.durationMs)]
  ring

theorem timingsGo_length : ∀ (fl : List AudioSegment) (cm : Int) (idx : Nat),
    (timingsGo fl cm idx).length = fl.length := by
  intro fl
  induction fl with
  | nil => intro cm idx; rfl
  | cons f rest ih =>
    intro cm idx
    show (timingsGo rest (cm + f.durationMs) (idx + 1)).length + 1 = rest.length + 1
    rw [ih]

theorem timingsGo_inv :
    ∀ (fl : List AudioSegment) (cm : Int) (idx : Nat) (i : Nat)
      (hi : i < (timingsGo fl cm idx).length) (hi' : i < fl.length),
      ((timingsGo fl cm idx).get ⟨i, hi⟩).startMs = cm + sumDur (fl.take i) ∧
      ((timingsGo fl cm idx).get ⟨i, hi⟩).endMs =
        ((timingsGo fl cm idx).get ⟨i, hi⟩).startMs + (fl.get ⟨i, hi'⟩).durationMs := by
  intro fl
  induction fl with
  | nil => intro cm idx i hi hi'; simp at hi'
  | cons f rest ih =>
    intro cm idx i hi hi'
    cases i with
    | zero =>
      constructor
      · show cm = cm + sumDur []
        simp [sumDur]
      · rfl
    | succ i =>
      have hi2 : i < (timingsGo rest (cm + f.durationMs) (idx + 1)).length := by
        simpa [timingsGo] using hi
      have hi2' : i < rest.length := by simpa using hi'
      obtain ⟨h1, h2⟩ := ih (cm + f.durationMs) (idx + 1) i hi2 hi2'
      constructor
      · show ((timingsGo rest _ _).get ⟨i, hi2⟩).startMs = _
        rw [h1]
        show _ = cm + sumDur (f :: rest.take i)
        rw [sumDur_cons]
        ring
      · exact h2

/-- C4: for every multi Book with a part list, the chapter list built by
buildChapterTimings has one chapter per part, `chapters[i].start_ms` is the sum
of the preceding part durations, and each chapter spans exactly its part's
duration. -/
theorem buildChapterTimings_invariants (book : Book) (fl : List AudioSegment)
    (hk : book.kind = .multi) (hf : book.files = some fl) :
    ∃ ts, buildChapterTimings book = some ts ∧
      ts.length = fl.length ∧
      ∀ i (hi : i < ts.length) (hi' : i < fl.length),
        (ts.get ⟨i, hi⟩).startMs = sumDur (fl.take i) ∧
        (ts.get ⟨i, hi⟩).endMs - (ts.get ⟨i, hi⟩).startMs = (fl.get ⟨i, hi'⟩).durationMs := by
  refine ⟨timingsGo fl 0 0, buildChapterTimings_multi hk hf, timingsGo_length fl 0 0, ?_⟩
  intro i hi hi'
  obtain ⟨h1, h2⟩ := timingsGo_inv fl 0 0 i hi hi'
  constructor
  · rw [h1]; ring
  · rw [h2]; ring

/-- Witness for C4 at the concrete two-part book. -/
theorem buildChapterTimings_invariants_witness :
    ∃ ts, buildChapterTimings bookX = some ts ∧
      ts.length = [segX1, segX2].length ∧
      ∀ i (hi : i < ts.length) (hi' : i < [segX1, segX2].length),
        (ts.get ⟨i, hi⟩).startMs = sumDur ([segX1, segX2].take i) ∧
        (ts.get ⟨i, hi⟩).endMs - (ts.get ⟨i, hi⟩).startMs =
          ([segX1, segX2].get ⟨i, hi'⟩).durationMs :=
  buildChapterTimings_invariants bookX [segX1, segX2] (by decide) (by decide)

/-! ## Probe cache (src/media/probe-cache.ts) -/

structure FfprobeChapter where
  start_time : Option String := none
  end_time : Option String := none
  tags : List (String × String) := []
deriving DecidableEq, Repr

structure ProbeData where
  duration : Option Int := none
  tags : List (String × String) := []
  chapters : List FfprobeChapter := []
deriving DecidableEq, Repr

structure ProbeEntry where
  mtimeMs : Int
  data : Option ProbeData
  error : Option String := none
deriving DecidableEq, Repr

structure DurEntry where
  mtimeMs : Int
  duration : Option Int := none
  failed : Bool := false
deriving DecidableEq, Repr

/-- In-memory JS Map, modelled by its lookup function. -/
def JsMap (α : Type) : Type := String → Option α

def jsMapSet {α : Type} (m : JsMap α) (k : String) (v : α) : JsMap α :=
  fun p => if p = k then some v else m p

/-- The external probe engine together with JSON parsing of its output:
either a parsed ProbeData or the error text the source would cache. -/
def ProbeEngine : Type := String → Except String ProbeData

/-- Engine invocation path of `probeData` (spawn, parse, cache, persist);
the Bool records that the engine was invoked. -/
def probeRun (engine : ProbeEngine) (cache : JsMap ProbeEntry)
    (filePath : String) (mtimeMs : Int) :
    Option ProbeData × JsMap ProbeEntry × Bool :=
  match engine filePath with
  | .error msg => (none, jsMapSet cache filePath ⟨mtimeMs, none, some msg⟩, true)
  | .ok data => (some data, jsMapSet cache filePath ⟨mtimeMs, some data, none⟩, true)

/-- Model of `probeData`: return the cached data when the stored mtime
matches, otherwise invoke the engine and cache the outcome (also on failure). -/
def probeData (engine : ProbeEngine) (cache : JsMap ProbeEntry)
    (filePath : String) (mtimeMs : Int) :
    Option ProbeData × JsMap ProbeEntry × Bool :=
  match cache filePath with
  | some cached =>
    if cached.mtimeMs = mtimeMs then (cached.data, cache, false)
    else probeRun engine cache filePath mtimeMs
  | none => probeRun engine cache filePath mtimeMs

/-- Model of `getDurationSeconds` with its two caches. -/
def getDurationSeconds (engine : ProbeEngine) (durCache : JsMap DurEntry)
    (probeCache : JsMap ProbeEntry) (filePath : String) (mtimeMs : Int) :
    Option Int × JsMap DurEntry × JsMap ProbeEntry × Bool :=
  match durCache filePath with
  | some cached =>
    if cached.mtimeMs = mtimeMs then
      if cached.failed then (none, durCache, probeCache, false)
      else (cached.duration, durCache, probeCache, false)
    else durationRun engine durCache probeCache filePath mtimeMs
  | none => durationRun engine durCache probeCache filePath mtimeMs
where
  durationRun (engine : ProbeEngine) (durCache : JsMap DurEntry)
      (probeCache : JsMap ProbeEntry) (filePath : String) (mtimeMs : Int) :
      Option Int × JsMap DurEntry × JsMap ProbeEntry × Bool :=
    let r := probeData engine probeCache filePath mtimeMs
    match r.1 with
    | none => (none, jsMapSet durCache filePath ⟨mtimeMs, none, true⟩, r.2.1, r.2.2)
    | some probed =>
      match probed.duration with
      | none => (none, jsMapSet durCache filePath ⟨mtimeMs, none, true⟩, r.2.1, r.2.2)
      | some dur =>
        (some dur, jsMapSet durCache filePath ⟨mtimeMs, some dur, false⟩, r.2.1, r.2.2)

theorem probeData_hit {engine : ProbeEngine} {cache : JsMap ProbeEntry}
    {path : String} {mtime : Int} {entry : ProbeEntry}
    (hc : cache path = some entry) (hm : entry.mtimeMs = mtime) :
    probeData engine cache path mtime = (entry.data, cache, false) := by
  unfold probeData
  rw [hc]
  simp [hm]

theorem probeData_stale {engine : ProbeEngine} {cache : JsMap ProbeEntry}
    {path : String} {mtime : Int} {entry : ProbeEntry}
    (hc : cache path = some entry) (hm : ¬entry.mtimeMs = mtime) :
    probeData engine cache path mtime = probeRun engine cache path mtime := by
  unfold probeData
  rw [hc]
  simp [hm]

theorem probeData_empty {engine : ProbeEngine} {cache : JsMap ProbeEntry}
    {path : String} {mtime : Int} (hc : cache path = none) :
    probeData engine cache path mtime = probeRun engine cache path mtime := by
  unfold probeData
  rw [hc]

theorem probeRun_cache {engine : ProbeEngine} {cache : JsMap ProbeEntry}
    (path : String) (mtime : Int) :
    (probeRun engine cache path mtime).2.1 path =
      some ⟨mtime, (probeRun engine cache path mtime).1,
        ((probeRun engine cache path mtime).2.1 path).bind (·.error)⟩ := by
  unfold probeRun
  cases he : engine path <;> simp [jsMapSet]

/-- Second probeData call with the same mtime: returns the first value,
leaves the cache unchanged, and does not invoke the engine. -/
theorem probeData_stable (engine : ProbeEngine) (cache : JsMap ProbeEntry)
    (path : String) (mtime : Int) :
    (probeData engine (probeData engine cache path mtime).2.1 path mtime).1 =
        (probeData engine cache path mtime).1 ∧
    (probeData engine (probeData engine cache path mtime).2.1 path mtime).2.1 =
        (probeData engine cache path mtime).2.1 ∧
    (probeData engine (probeData engine cache path mtime).2.1 path mtime).2.2 = false := by
  cases hc : cache path with
  | some entry =>
    by_cases hm : entry.mtimeMs = mtime
    · rw [probeData_hit hc hm]
      rw [probeData_hit hc hm]
      exact ⟨rfl, rfl, rfl⟩
    · rw [probeData_stale hc hm]
      have h2 := @probeRun_cache engine cache path mtime
      rw [probeData_hit h2 rfl]
      exact ⟨rfl, rfl, rfl⟩
  | none =>
    rw [probeData_empty hc]
    have h2 := @probeRun_cache engine cache path mtime
    rw [probeData_hit h2 rfl]
    exact ⟨rfl, rfl, rfl⟩

theorem durationRun_cache (engine : ProbeEngine) (durCache : JsMap DurEntry)
    (probeCache : JsMap ProbeEntry) (path : String) (mtime : Int) :
    ((getDurationSeconds.durationRun engine durCache probeCache path mtime).2.1) path =
      some ⟨mtime, (getDurationSeconds.durationRun engine durCache probeCache path mtime).1,
        (getDurationSeconds.durationRun engine durCache probeCache path mtime).1.isNone⟩ := by
  unfold getDurationSeconds.durationRun
  cases hp : (probeData engine probeCache path mtime).1 with
  | none => simp [hp, jsMapSet]
  | some probed =>
    cases hpd : probed.duration with
    | none => simp [hp, hpd, jsMapSet]
    | some dur => simp [hp, hpd, jsMapSet]

theorem getDurationSeconds_hit {engine : ProbeEngine} {durCache : JsMap DurEntry}
    {probeCache : JsMap ProbeEntry} {path : String} {mtime : Int} {cached : DurEntry}
    (hd : durCache path = some cached) (hm : cached.mtimeMs = mtime) :
    getDurationSeconds engine durCache probeCache path mtime =
      (if cached.failed then none else cached.duration, durCache, probeCache, false) := by
  unfold getDurationSeconds
  rw [hd]
  by_cases hfail : cached.failed = true
  · simp [hm, hfail]
  · simp at hfail
    simp [hm, hfail]

/-- C7: a probe-cache lookup with an mtime equal to the stored entry's mtime
returns the same value as the first lookup without invoking the engine, for
successful and failed probes alike; likewise for the derived duration cache,
so a file that failed to probe is not re-probed while its mtime is unchanged. -/
theorem probe_cache_stable (engine : ProbeEngine) (probeCache : JsMap ProbeEntry)
    (durCache : JsMap DurEntry) (path : String) (mtime : Int) :
    (let r1 := probeData engine probeCache path mtime
     let r2 := probeData engine r1.2.1 path mtime
     r2.1 = r1.1 ∧ r2.2.1 = r1.2.1 ∧ r2.2.2 = false)
    ∧ (let d1 := getDurationSeconds engine durCache probeCache path mtime
       let d2 := getDurationSeconds engine d1.2.1 d1.2.2.1 path mtime
       d2.1 = d1.1 ∧ d2.2.1 = d1.2.1 ∧ d2.2.2.1 = d1.2.2.1 ∧ d2.2.2.2 = false) := by
  refine ⟨probeData_stable engine probeCache path mtime, ?_⟩
  show (getDurationSeconds engine
      (getDurationSeconds engine durCache probeCache path mtime).2.1
      (getDurationSeconds engine durCache probeCache path mtime).2.2.1 path mtime).1 = _ ∧ _
  cases hd : durCache path with
  | some cached =>
    by_cases hm : cached.mtimeMs = mtime
    · rw [getDurationSeconds_hit hd hm]
      rw [getDurationSeconds_hit hd hm]
      exact ⟨rfl, rfl, rfl, rfl⟩
    · have hrun : getDurationSeconds engine durCache probeCache path mtime =
          getDurationSeconds.durationRun engine durCache probeCache path mtime := by
        unfold getDurationSeconds
        rw [hd]
        simp [hm]
      rw [hrun]
      have h2 := durationRun_cache engine durCache probeCache path mtime
      rw [getDurationSeconds_hit h2 rfl]
      cases hval : (getDurationSeconds.durationRun engine durCache probeCache path mtime).1 with
      | none => simp [hval]
      | some v => simp [hval]
  | none =>
    have hrun : getDurationSeconds engine durCache probeCache path mtime =
        getDurationSeconds.durationRun engine durCache probeCache path mtime := by
      unfold getDurationSeconds
      rw [hd]
    rw [hrun]
    have h2 := durationRun_cache engine durCache probeCache path mtime
    rw [getDurationSeconds_hit h2 rfl]
    cases hval : (getDurationSeconds.durationRun engine durCache probeCache path mtime).1 with
    | none => simp [hval]
    | some v => simp [hval]

/-! ## Transcode state and scan models (src/transcode, src/library/index.ts and
the monolithic scanAndQueue) -/

inductive TranscodeState
  | pending
  | working
  | done
  | failed
deriving DecidableEq, Repr

structure PendingSingleMeta where
  id : String
  title : String
  author : String
  coverPath : Option String := none
  epubPath : Option String := none
  durationSeconds : Option Int := none
  publishedAt : Option Int := none
  addedAt : Option Int := none
  description : Option String := none
  descriptionHtml : Option String := none
  language : Option String := none
  isbn : Option String := none
  identifiers : List (String × String) := []
  chapters : Option (List ChapterTiming) := none
deriving DecidableEq, Repr

structure TranscodeStatus where
  source : String
  target : String
  mtimeMs : Int
  state : TranscodeState
  error : Option String := none
  outTimeMs : Option Int := none
  speed : Option Int := none
  durationMs : Option Int := none
  meta : Option PendingSingleMeta := none
deriving DecidableEq, Repr

structure TranscodeJob where
  source : String
  target : String
  mtimeMs : Int
  meta : PendingSingleMeta
deriving DecidableEq, Repr

structure BookBuildResult where
  ready : Option Book := none
  pendingJob : Option TranscodeJob := none
  sourcePath : Option String := none
deriving DecidableEq, Repr

/-- Modular scanAndQueue (src/library/index.ts): each discovered book
directory yields a buildBook result (`none` for skipped directories); ready
books are only inserted into the existing index, nothing is deleted. -/
def scanAndQueueModular (results : List (Option BookBuildResult))
    (readyBooks : JsMap Book) : JsMap Book :=
  results.foldl
    (fun acc r =>
      match r with
      | some res =>
        match res.ready with
        | some b => jsMapSet acc b.id b
        | none => acc
      | none => acc)
    readyBooks

/-- Monolithic scanAndQueue (the single-file server): ready books are
collected into a fresh map that replaces the index, and transcode statuses
whose source was not seen by the traversal are deleted. -/
def scanAndQueueMono (results : List (Option BookBuildResult))
    (statuses : List (String × TranscodeStatus)) :
    JsMap Book × List (String × TranscodeStatus) :=
  let nextReady := results.foldl
    (fun acc r =>
      match r with
      | some res =>
        match res.ready with
        | some b => jsMapSet acc b.id b
        | none => acc
      | none => acc)
    (fun _ => none)
  let seenSources := results.foldl
    (fun acc r =>
      match r with
      | some res =>
        let acc := match res.pendingJob with
          | some job => job.source :: acc
          | none => acc
        match res.sourcePath with
        | some sp => sp :: acc
        | none => acc
      | none => acc)
    []
  (nextReady, statuses.filter (fun kv => seenSources.contains kv.1))

theorem scanFold_none {results : List (Option BookBuildResult)} (bid : String) :
    ∀ (acc : JsMap Book), acc bid = none →
      (∀ r ∈ results, ∀ res, r = some res → ∀ b, res.ready = some b → b.id ≠ bid) →
      (results.foldl
        (fun acc r =>
          match r with
          | some res =>
            match res.ready with
            | some b => jsMapSet acc b.id b
            | none => acc
          | none => acc)
        acc) bid = none := by
  induction results with
  | nil => intro acc hacc _; exact hacc
  | cons r rest ih =>
    intro acc hacc hno
    rw [List.foldl_cons]
    cases r with
    | none =>
      exact ih acc hacc (fun r hr => hno r (List.mem_cons_of_mem _ hr))
    | some res =>
      cases hready : res.ready with
      | none =>
        simp only [hready]
        exact ih acc hacc (fun r hr => hno r (List.mem_cons_of_mem _ hr))
      | some b =>
        simp only [hready]
        refine ih (jsMapSet acc b.id b) ?_ (fun r hr => hno r (List.mem_cons_of_mem _ hr))
        unfold jsMapSet
        rw [if_neg ?_]
        · exact hacc
        · intro hbid
          exact hno (some res) (List.mem_cons_self _ _) res rfl b hready (by rw [hbid])

/-- C8 (amended, monolithic scanner): a completed scan whose traversal no
longer references a book's source leaves the rebuilt Library Index without
that book id. -/
theorem scanAndQueueMono_evicts (results : List (Option BookBuildResult))
    (statuses : List (String × TranscodeStatus)) (bid : String)
    (hno : ∀ r ∈ results, ∀ res, r = some res → ∀ b, res.ready = some b → b.id ≠ bid) :
    (scanAndQueueMono results statuses).1 bid = none := by
  unfold scanAndQueueMono
  exact scanFold_none bid (fun _ => none) rfl hno

/-- Counterexample for C8 as stated against the modular library scanner: a
scan over results that no longer reference the book leaves the book in the
index untouched. -/
theorem scanAndQueueModular_keeps_stale :
    scanAndQueueModular [] (jsMapSet (fun _ => none) "a-b" bookX) "a-b" = some bookX := by
  simp [scanAndQueueModular, jsMapSet]

/-- Witness for the amended C8 at a concrete empty scan. -/
theorem scanAndQueueMono_evicts_witness :
    (scanAndQueueMono [] []).1 "a-b" = none :=
  scanAndQueueMono_evicts [] [] "a-b" (by simp)

/-! ## Feed view (src/library/index.ts, feedBooksSorted) -/

/-- Placeholder Book synthesized from a pending TranscodeStatus meta snapshot. -/
def placeholderBook (meta : PendingSingleMeta) : Book :=
  { id := meta.id, title := meta.title, author := meta.author, kind := .single
    mime := mimeFromExt ".mp3", totalSize := 0, coverPath := meta.coverPath
    durationSeconds := meta.durationSeconds, publishedAt := meta.publishedAt
    addedAt := meta.addedAt, description := meta.description
    descriptionHtml := meta.descriptionHtml, language := meta.language
    isbn := meta.isbn, identifiers := meta.identifiers, chapters := meta.chapters }

/-- JS Map modelled as an insertion-ordered association list (needed here
because `feedBooksSorted` iterates over the values). -/
def mapHas (m : List (String × Book)) (k : String) : Bool :=
  m.any (fun kv => kv.1 == k)

def mapSetA (m : List (String × Book)) (k : String) (v : Book) : List (String × Book) :=
  if mapHas m k then m.map (fun kv => if kv.1 == k then (k, v) else kv) else m ++ [(k, v)]

/-- Sort key `(addedAt ?? publishedAt)?.getTime() ?? 0`. -/
def sortKey (b : Book) : Int :=
  match b.addedAt with
  | some t => t
  | none => b.publishedAt.getD 0

def insertDesc (b : Book) : List Book → List Book
  | [] => [b]
  | x :: xs => if sortKey x < sortKey b then b :: x :: xs else x :: insertDesc b xs

/-- Sorting by descending `sortKey` (the comparator `bt - at` of the source). -/
def sortByAddedDesc : List Book → List Book
  | [] => []
  | x :: xs => insertDesc x (sortByAddedDesc xs)

/-- Placeholder-merging step of `feedBooksSorted`: skip done statuses and
statuses without meta, and never overwrite an id already present. -/
def statusStep (m : List (String × Book)) (st : TranscodeStatus) : List (String × Book) :=
  if st.state = .done ∨ st.meta = none then m
  else
    match st.meta with
    | none => m
    | some meta =>
      if mapHas m meta.id then m
      else mapSetA m meta.id (placeholderBook meta)

/-- Model of `feedBooksSorted`. -/
def feedBooksSorted (ready : List Book) (statuses : List TranscodeStatus) : List Book :=
  let combined := ready.foldl (fun m b => mapSetA m b.id b) []
  let combined := statuses.foldl statusStep combined
  sortByAddedDesc (combined.map (·.2))

theorem insertDesc_perm (b : Book) (l : List Book) : List.Perm (insertDesc b l) (b :: l) := by
  induction l with
  | nil => rfl
  | cons x xs ih =>
    unfold insertDesc
    split
    · rfl
    · exact List.Perm.trans (List.Perm.cons x ih) (List.Perm.swap _ _ _)

theorem sortByAddedDesc_perm (l : List Book) : List.Perm (sortByAddedDesc l) l := by
  induction l with
  | nil => rfl
  | cons x xs ih =>
    exact List.Perm.trans (insertDesc_perm x _) (List.Perm.cons x ih)

theorem mapHas_false_not_mem {m : List (String × Book)} {k : String}
    (h : mapHas m k = false) : ∀ kv ∈ m, kv.1 ≠ k := by
  intro kv hkv
  unfold mapHas at h
  rw [List.any_eq_false] at h
  have := h kv hkv
  simpa using this

theorem mapSetA_not_has {m : List (String × Book)} {k : String} {v : Book}
    (h : mapHas m k = false) : mapSetA m k v = m ++ [(k, v)] := by
  unfold mapSetA
  rw [h]
  rfl

theorem mapHas_append (m1 m2 : List (String × Book)) (k : String) :
    mapHas (m1 ++ m2) k = (mapHas m1 k || mapHas m2 k) := by
  simp [mapHas, List.any_append]

theorem readyFold_eq (ready : List Book) :
    ∀ acc : List (String × Book),
      (∀ b ∈ ready, mapHas acc b.id = false) →
      (ready.map Book.id).Nodup →
      ready.foldl (fun m b => mapSetA m b.id b) acc = acc ++ ready.map (fun b => (b.id, b)) := by
  induction ready with
  | nil => intro acc _ _; simp
  | cons b rest ih =>
    intro acc hhas hnd
    rw [List.foldl_cons, mapSetA_not_has (hhas b (List.mem_cons_self _ _))]
    rw [List.map_cons] at hnd ⊢
    have hnd' := List.Nodup.of_cons hnd
    have hbid : b.id ∉ rest.map Book.id := (List.nodup_cons.mp hnd).1
    rw [ih (acc ++ [(b.id, b)]) ?_ hnd']
    · simp
    · intro b' hb'
      rw [mapHas_append]
      have h1 : mapHas acc b'.id = false := hhas b' (List.mem_cons_of_mem _ hb')
      have h2 : mapHas [(b.id, b)] b'.id = false := by
        simp [mapHas]
        intro heq
        exact absurd (heq ▸ List.mem_map_of_mem Book.id hb') hbid
      rw [h1, h2]
      rfl

theorem statusFold_inv (ready : List Book) :
    ∀ (l : List TranscodeStatus) (m : List (String × Book)),
      (m.map (·.1)).Nodup →
      (∀ b ∈ ready, (b.id, b) ∈ m) →
      (∀ kv ∈ m, kv.2.id = kv.1) →
      ((l.foldl statusStep m).map (·.1)).Nodup
        ∧ (∀ kv ∈ m, kv ∈ l.foldl statusStep m)
        ∧ (∀ kv ∈ l.foldl statusStep m, kv.2.id = kv.1)
        ∧ (∀ kv ∈ l.foldl statusStep m, kv ∈ m ∨
            ∃ st ∈ l, st.state ≠ .done ∧ ∃ mt, st.meta = some mt ∧
              kv = (mt.id, placeholderBook mt) ∧ mt.id ∉ ready.map Book.id) := by
  intro l
  induction l with
  | nil =>
    intro m hnd hready hkey
    exact ⟨hnd, fun kv hkv => hkv, hkey, fun kv hkv => Or.inl hkv⟩
  | cons st l ih =>
    intro m hnd hready hkey
    rw [List.foldl_cons]
    by_cases hskip : st.state = .done ∨ st.meta = none
    · have hstep : statusStep m st = m := by
        unfold statusStep
        rw [if_pos hskip]
      rw [hstep]
      obtain ⟨a1, a2, a3, a4⟩ := ih m hnd hready hkey
      refine ⟨a1, a2, a3, fun kv hkv => ?_⟩
      rcases a4 kv hkv with h | ⟨st', hst', hrest⟩
      · exact Or.inl h
      · exact Or.inr ⟨st', List.mem_cons_of_mem _ hst', hrest⟩
    · push_neg at hskip
      obtain ⟨hdone, hmeta⟩ := hskip
      cases hmt : st.meta with
      | none => exact absurd hmt hmeta
      | some mt =>
        have hstep : statusStep m st =
            if mapHas m mt.id then m else mapSetA m mt.id (placeholderBook mt) := by
          unfold statusStep
          rw [if_neg (by simp [hmt, hdone]), hmt]
        by_cases hhas : mapHas m mt.id = true
        · rw [hstep, if_pos hhas]
          obtain ⟨a1, a2, a3, a4⟩ := ih m hnd hready hkey
          refine ⟨a1, a2, a3, fun kv hkv => ?_⟩
          rcases a4 kv hkv with h | ⟨st', hst', hrest⟩
          · exact Or.inl h
          · exact Or.inr ⟨st', List.mem_cons_of_mem _ hst', hrest⟩
        · simp only [Bool.not_eq_true] at hhas
          rw [hstep, if_neg (by simp [hhas]), mapSetA_not_has hhas]
          have hnotready : mt.id ∉ ready.map Book.id := by
            intro hmem
            obtain ⟨b, hb, hbid⟩ := List.mem_map.mp hmem
            exact mapHas_false_not_mem hhas (b.id, b) (hready b hb) (by rw [hbid])
          have hnd' : ((m ++ [(mt.id, placeholderBook mt)]).map (·.1)).Nodup := by
            rw [List.map_append, List.nodup_append]
            refine ⟨hnd, by simp, ?_⟩
            intro k hk hk2
            simp at hk2
            obtain ⟨kv, hkv, hkvk⟩ := List.mem_map.mp hk
            exact mapHas_false_not_mem hhas kv hkv (by rw [hkvk, hk2])
          have hready' : ∀ b ∈ ready, (b.id, b) ∈ m ++ [(mt.id, placeholderBook mt)] :=
            fun b hb => List.mem_append_left _ (hready b hb)
          have hkey' : ∀ kv ∈ m ++ [(mt.id, placeholderBook mt)], kv.2.id = kv.1 := by
            intro kv hkv
            rcases List.mem_append.mp hkv with h | h
            · exact hkey kv h
            · simp at h
              subst h
              rfl
          obtain ⟨a1, a2, a3, a4⟩ := ih (m ++ [(mt.id, placeholderBook mt)]) hnd' hready' hkey'
          refine ⟨a1, fun kv hkv => a2 kv (List.mem_append_left _ hkv), a3,
            fun kv hkv => ?_⟩
          rcases a4 kv hkv with h | ⟨st', hst', hrest⟩
          · rcases List.mem_append.mp h with h | h
            · exact Or.inl h
            · simp at h
              subst h
              exact Or.inr ⟨st, List.mem_cons_self _ _, hdone, mt, hmt, rfl, hnotready⟩
          · exact Or.inr ⟨st', List.mem_cons_of_mem _ hst', hrest⟩

/-- C10: feedBooksSorted returns at most one Book per id; every ready book is
included unchanged; any other entry is a placeholder synthesized from a
not-done TranscodeStatus meta snapshot whose id does not collide with a ready
book, so a ready book always takes precedence over a placeholder. -/
theorem feedBooksSorted_spec (ready : List Book) (statuses : List TranscodeStatus)
    (hnodup : (ready.map Book.id).Nodup) :
    ((feedBooksSorted ready statuses).map Book.id).Nodup
    ∧ (∀ b ∈ ready, b ∈ feedBooksSorted ready statuses)
    ∧ (∀ b ∈ feedBooksSorted ready statuses,
        b ∈ ready ∨ ∃ st ∈ statuses, st.state ≠ .done ∧ ∃ m, st.meta = some m ∧
          b = placeholderBook m ∧ m.id ∉ ready.map Book.id) := by
  have h1 : ready.foldl (fun m b => mapSetA m b.id b) [] =
      ready.map (fun b => (b.id, b)) := by
    have := readyFold_eq ready [] (fun b _ => rfl) hnodup
    simpa using this
  have hm1nd : ((ready.map (fun b => (b.id, b))).map (·.1)).Nodup := by
    rw [List.map_map]
    exact hnodup
  have hm1ready : ∀ b ∈ ready, (b.id, b) ∈ ready.map (fun b => (b.id, b)) :=
    fun b hb => List.mem_map_of_mem _ hb
  have hm1key : ∀ kv ∈ ready.map (fun b => (b.id, b)), kv.2.id = kv.1 := by
    intro kv hkv
    obtain ⟨b, _, hbid⟩ := List.mem_map.mp hkv
    rw [← hbid]
  obtain ⟨a1, a2, a3, a4⟩ :=
    statusFold_inv ready statuses (ready.map (fun b => (b.id, b))) hm1nd hm1ready hm1key
  have hfeed : feedBooksSorted ready statuses =
      sortByAddedDesc ((statuses.foldl statusStep (ready.map (fun b => (b.id, b)))).map (·.2)) := by
    unfold feedBooksSorted
    rw [h1]
  have hperm : List.Perm (feedBooksSorted ready statuses)
      ((statuses.foldl statusStep (ready.map (fun b => (b.id, b)))).map (·.2)) := by
    rw [hfeed]
    exact sortByAddedDesc_perm _
  refine ⟨?_, ?_, ?_⟩
  · have hids : ((statuses.foldl statusStep (ready.map (fun b => (b.id, b)))).map (·.2)).map
        Book.id = (statuses.foldl statusStep (ready.map (fun b => (b.id, b)))).map (·.1) := by
      rw [List.map_map]
      exact List.map_congr_left a3
    have := (hperm.map Book.id).nodup_iff
    rw [this, hids]
    exact a1
  · intro b hb
    have : b ∈ (statuses.foldl statusStep (ready.map (fun b => (b.id, b)))).map (·.2) :=
      List.mem_map_of_mem _ (a2 (b.id, b) (hm1ready b hb))
    exact hperm.symm.subset this
  · intro b hb
    have hb' : b ∈ (statuses.foldl statusStep (ready.map (fun b => (b.id, b)))).map (·.2) :=
      hperm.subset hb
    obtain ⟨kv, hkv, hkvb⟩ := List.mem_map.mp hb'
    rcases a4 kv hkv with h | ⟨st, hst, hdone, mt, hmt, hkveq, hnr⟩
    · obtain ⟨b', hb'', hbeq⟩ := List.mem_map.mp h
      left
      have : b = b' := by rw [← hkvb, ← hbeq]
      rw [this]
      exact hb''
    · right
      refine ⟨st, hst, hdone, mt, hmt, ?_, hnr⟩
      rw [← hkvb, hkveq]

def metaP : PendingSingleMeta := { id := "c-d", title := "D", author := "C" }

def stP : TranscodeStatus :=
  { source := "/lib/c/d/e.m4b", target := "/data/c-d.mp3", mtimeMs := 10
    state := .pending, meta := some metaP }

/-- Witness for C10 at one ready book and one pending status. -/
theorem feedBooksSorted_spec_witness :
    ((feedBooksSorted [bookX] [stP]).map Book.id).Nodup
    ∧ (∀ b ∈ [bookX], b ∈ feedBooksSorted [bookX] [stP])
    ∧ (∀ b ∈ feedBooksSorted [bookX] [stP],
        b ∈ [bookX] ∨ ∃ st ∈ [stP], st.state ≠ .done ∧ ∃ m, st.meta = some m ∧
          b = placeholderBook m ∧ m.id ∉ [bookX].map Book.id) :=
  feedBooksSorted_spec [bookX] [stP] (by decide)

/-! ## Tag length accounting (C2) -/

theorem length_id3Frame (id : String) (payload : List Nat) :
    (id3Frame id payload).length = 10 + payload.length := by
  unfold id3Frame
  have h4 : ((utf8 id).take 4).length ≤ 4 := by
    simp [List.length_take]
  simp [List.length_append, synchsafeSize]
  omega

theorem length_textFrame (id text : String) :
    (textFrame id text).length = 11 + (utf8 text).length := by
  unfold textFrame
  rw [length_id3Frame]
  simp
  omega

theorem length_writeUint32BE (v : Int) : (writeUint32BE v).length = 4 := rfl

theorem length_chapFrame (i t : String) (s e : Int) :
    (chapFrame i t s e).length = 38 + (utf8 i).length + (utf8 t).length := by
  unfold chapFrame concatBytes
  rw [length_id3Frame]
  simp [length_writeUint32BE, length_textFrame]
  omega

theorem length_apicFrame (c : CoverArt) :
    (apicFrame c).length = 10 + (1 + (utf8 c.mime).length + 3 + c.data.length) := by
  unfold apicFrame concatBytes
  rw [length_id3Frame]
  simp
  omega

/-- Byte length of a non-empty chapter tag: outer header plus the cover,
CTOC and CHAP frame lengths. -/
theorem length_buildTag (timings : List ChapterTiming) (cover : Option CoverArt)
    (hne : timings ≠ []) :
    (buildId3ChaptersTag timings cover).length =
      10 + (match cover with | some c => (apicFrame c).length | none => 0)
        + (ctocFrame (timings.map (·.id))).length
        + (timings.map (fun chap =>
            (chapFrame chap.id chap.title chap.startMs chap.endMs).length)).sum := by
  unfold buildId3ChaptersTag
  rw [if_neg (by simp [hne])]
  have hpos : timings.length > 0 := List.length_pos.mpr hne
  rw [if_pos hpos]
  have hid3 : (utf8 "ID3").length = 3 := rfl
  cases cover with
  | none =>
    simp [concatBytes, synchsafeSize, hid3, List.map_map, Function.comp_def]
    omega
  | some c =>
    simp [concatBytes, synchsafeSize, hid3, List.map_map, Function.comp_def]
    omega

/-- The chapter ids produced by buildChapterTimings are `ch{i}` by position,
identical to the dummy ids the estimator uses. -/
theorem timingsGo_map_id : ∀ (fl : List AudioSegment) (cm : Int) (idx : Nat),
    (timingsGo fl cm idx).map (·.id) =
      (List.enumFrom idx fl).map (fun p => "ch" ++ natStr p.1) := by
  intro fl
  induction fl with
  | nil => intro cm idx; rfl
  | cons seg rest ih =>
    intro cm idx
    show ("ch" ++ natStr idx) :: (timingsGo rest (cm + seg.durationMs) (idx + 1)).map (·.id) = _
    rw [ih (cm + seg.durationMs) (idx + 1)]
    rfl

/-- Sum of CHAP frame lengths over the actual timings equals the sum over the
estimator's dummy timings whenever each chapter title has the same UTF-8 byte
length as the corresponding basename-derived dummy title. -/
theorem chapSum_eq : ∀ (fl : List AudioSegment) (cm : Int) (idx : Nat),
    (∀ p ∈ List.enumFrom idx fl, (utf8 (chapterTitle p.2 p.1)).length =
        (utf8 (basenameSuffix p.2.name (extname p.2.name))).length) →
    ((timingsGo fl cm idx).map
        (fun chap => (chapFrame chap.id chap.title chap.startMs chap.endMs).length)).sum =
    ((List.enumFrom idx fl).map
        (fun p => (chapFrame ("ch" ++ natStr p.1)
          (basenameSuffix p.2.name (extname p.2.name)) 0 0).length)).sum := by
  intro fl
  induction fl with
  | nil => intro cm idx _; rfl
  | cons seg rest ih =>
    intro cm idx htitles
    have hhead := htitles (idx, seg) (List.mem_cons_self _ _)
    simp only [timingsGo, List.enumFrom, List.map_cons, List.sum_cons]
    rw [ih (cm + seg.durationMs) (idx + 1)
      (fun p hp => htitles p (List.mem_cons_of_mem _ hp))]
    rw [length_chapFrame, length_chapFrame]
    simp only at hhead
    omega

/-- Cover contribution: the estimator's stat-based cover length equals the
APIC frame length handleStream would add for the same cover file. -/
theorem coverLen_eq (fs : Fs) (book : Book) :
    estimateCoverFrameLength fs book.coverPath =
      (match coverArtOf fs book with
        | some c => ((apicFrame c).length : Int)
        | none => 0) := by
  unfold estimateCoverFrameLength coverArtOf
  cases hcp : book.coverPath with
  | none => simp [hcp]
  | some cp =>
    simp only [hcp]
    cases hfs : fs cp with
    | none => simp [hfs]
    | some bytes =>
      simp only [hfs]
      by_cases hlen : bytes.length = 0
      · simp [hlen]
      · have hpos : bytes.length > 0 := Nat.pos_of_ne_zero hlen
        simp only [hlen, if_false, hpos, if_true]
        rw [length_apicFrame]
        push_cast
        ring

/-- C2 (amended): for a multi Book, estimateId3TagLength equals the byte
length of the tag built from the actual chapter timings and cover whenever
every chapter's effective title (embedded title when present and non-empty,
else the basename fallback) has the same UTF-8 byte length as the
basename-derived dummy title the estimator uses — in particular whenever no
part carries an embedded title.  With an embedded title of a different byte
length the two differ (see the counterexample). -/
theorem estimateId3TagLength_correct (fs : Fs) (book : Book) (fl : List AudioSegment)
    (hk : book.kind = .multi) (hf : book.files = some fl) (hne : fl ≠ [])
    (htitles : ∀ p ∈ fl.enum, (utf8 (chapterTitle p.2 p.1)).length =
        (utf8 (basenameSuffix p.2.name (extname p.2.name))).length) :
    estimateId3TagLength fs book = ((tagOf fs book).length : Int) := by
  have htw : buildChapterTimings book = some (timingsGo fl 0 0) :=
    buildChapterTimings_multi hk hf
  have htags : tagOf fs book = buildId3ChaptersTag (timingsGo fl 0 0) (coverArtOf fs book) := by
    unfold tagOf
    rw [htw]
    rfl
  have htne : timingsGo fl 0 0 ≠ [] := by
    intro h
    have := timingsGo_length fl 0 0
    rw [h] at this
    exact hne (List.length_eq_zero.mp this.symm)
  have hdne : fl.enum.map (fun p =>
      ({ id := "ch" ++ natStr p.1
         title := basenameSuffix p.2.name (extname p.2.name)
         startMs := 0, endMs := 0 } : ChapterTiming)) ≠ [] := by
    intro h
    have hlen := congrArg List.length h
    simp [List.enum_length] at hlen
    exact hne hlen
  unfold estimateId3TagLength
  rw [hf]
  simp only [hk, Option.getD_some, ne_eq, not_true_eq_false, if_false, ite_false]
  rw [htags]
  rw [length_buildTag _ _ htne, length_buildTag _ _ hdne]
  rw [coverLen_eq fs book]
  have hids : (timingsGo fl 0 0).map (·.id) =
      ((fl.enum.map (fun p =>
        ({ id := "ch" ++ natStr p.1
           title := basenameSuffix p.2.name (extname p.2.name)
           startMs := 0, endMs := 0 } : ChapterTiming))).map (·.id)) := by
    rw [timingsGo_map_id fl 0 0, List.map_map]
    rfl
  have hsum : ((timingsGo fl 0 0).map
      (fun chap => (chapFrame chap.id chap.title chap.startMs chap.endMs).length)).sum =
      ((fl.enum.map (fun p =>
        ({ id := "ch" ++ natStr p.1
           title := basenameSuffix p.2.name (extname p.2.name)
           startMs := 0, endMs := 0 } : ChapterTiming))).map
        (fun chap => (chapFrame chap.id chap.title chap.startMs chap.endMs).length)).sum := by
    rw [chapSum_eq fl 0 0 htitles, List.map_map]
    rfl
  rw [hids, hsum]
  cases hca : coverArtOf fs book with
  | none => push_cast; ring
  | some c => push_cast; ring

def fsE : Fs := fun _ => none

def segT : AudioSegment :=
  { path := "/lib/a/b/01.mp3", name := "01.mp3", size := 3, start := 0, stop := 2
    durationMs := 1000, title := some "Introduction" }

def bookT : Book :=
  { id := "a-b", title := "B", author := "A", kind := .multi, mime := "audio/mpeg"
    totalSize := 3, files := some [segT] }

set_option maxRecDepth 100000 in
/-- Counterexample for C2 as stated: a part whose embedded title
("Introduction") has a different UTF-8 length than its filename-derived dummy
title ("01") makes the estimator disagree with the actual tag length. -/
theorem estimateId3TagLength_counterexample :
    estimateId3TagLength fsE bookT ≠ ((tagOf fsE bookT).length : Int) := by
  decide

set_option maxRecDepth 100000 in
/-- Witness for the amended C2 at a concrete book without embedded titles. -/
theorem estimateId3TagLength_correct_witness :
    estimateId3TagLength fsX bookX = ((tagOf fsX bookX).length : Int) :=
  estimateId3TagLength_correct fsX bookX [segX1, segX2] (by decide) (by decide)
    (by decide) (by decide)

end Podible
